import Mathlib

/-!
Verification development for the CryptoBreaker repository (classical-cipher
cryptanalysis in C++).  The C++ code computes with `double`; here every
numeric computation is embedded exactly over an unnormalised fraction type
`Frac` (integer numerator, positive natural denominator, no gcd reduction),
interpreted into `ℚ` by `Frac.toRat`.  All text is `List Char`, with ASCII
semantics for `isalpha` / `toupper` / `tolower` exactly as the C++ library
behaves on the ASCII inputs the program works with.
-/

/-- Exact rational value: numerator, positive denominator, never reduced.
Mirrors real-number arithmetic of the C++ `double` expressions exactly. -/
structure Frac where
  num : ℤ
  den : ℕ
  den_pos : 0 < den

namespace Frac

/-- Embed an integer. -/
def ofInt (n : ℤ) : Frac := ⟨n, 1, Nat.one_pos⟩

/-- Embed a fraction given by numerator and (intended positive) denominator. -/
def ofPair (n : ℤ) (d : ℕ) : Frac :=
  if h : 0 < d then ⟨n, d, h⟩ else ⟨n, 1, Nat.one_pos⟩

/-- Addition: cross multiplication, no reduction. -/
def add (a b : Frac) : Frac :=
  ⟨a.num * b.den + b.num * a.den, a.den * b.den, Nat.mul_pos a.den_pos b.den_pos⟩

/-- Subtraction. -/
def sub (a b : Frac) : Frac :=
  ⟨a.num * b.den - b.num * a.den, a.den * b.den, Nat.mul_pos a.den_pos b.den_pos⟩

/-- Multiplication. -/
def mul (a b : Frac) : Frac :=
  ⟨a.num * b.num, a.den * b.den, Nat.mul_pos a.den_pos b.den_pos⟩

/-- Division.  Division by a zero value yields 0 (the C++ code guards every
division so this branch is never semantically relevant). -/
def div (a b : Frac) : Frac :=
  if h0 : b.num = 0 then ⟨0, 1, Nat.one_pos⟩
  else if b.num < 0 then ⟨-(a.num * b.den), a.den * b.num.natAbs,
    Nat.mul_pos a.den_pos (Int.natAbs_pos.mpr h0)⟩
  else ⟨a.num * b.den, a.den * b.num.natAbs,
    Nat.mul_pos a.den_pos (Int.natAbs_pos.mpr h0)⟩

instance : Inhabited Frac := ⟨ofInt 0⟩
instance : Add Frac := ⟨add⟩
instance : Sub Frac := ⟨sub⟩
instance : Mul Frac := ⟨mul⟩
instance : Div Frac := ⟨div⟩
instance : OfNat Frac n := ⟨ofInt n⟩

/-- Strict order, by cross multiplication (denominators are positive). -/
def flt (a b : Frac) : Prop := a.num * (b.den : ℤ) < b.num * (a.den : ℤ)

/-- Non-strict order. -/
def fle (a b : Frac) : Prop := a.num * (b.den : ℤ) ≤ b.num * (a.den : ℤ)

instance : LT Frac := ⟨flt⟩
instance : LE Frac := ⟨fle⟩

instance decLt (a b : Frac) : Decidable (a < b) := Int.decLt _ _
instance decLe (a b : Frac) : Decidable (a ≤ b) := Int.decLe _ _

/-- `std::min(a, b)`: returns `b` exactly when `b < a`. -/
def fmin (a b : Frac) : Frac := if b < a then b else a

/-- `std::max(a, b)`: returns `b` exactly when `a < b`. -/
def fmax (a b : Frac) : Frac := if a < b then b else a

/-- `std::abs`. -/
def fabs (a : Frac) : Frac := if a.num < 0 then ⟨-a.num, a.den, a.den_pos⟩ else a

/-- Semantics of a `Frac` as a rational number. -/
def toRat (a : Frac) : ℚ := (a.num : ℚ) / (a.den : ℚ)

theorem den_ne_zero_q (a : Frac) : ((a.den : ℚ)) ≠ 0 :=
  Nat.cast_ne_zero.mpr (Nat.pos_iff_ne_zero.mp a.den_pos)

theorem toRat_ofInt (n : ℤ) : toRat (ofInt n) = (n : ℚ) := by
  simp [toRat, ofInt]

theorem toRat_ofPair (n : ℤ) (d : ℕ) (h : 0 < d) :
    toRat (ofPair n d) = (n : ℚ) / (d : ℚ) := by
  simp [toRat, ofPair, h]

theorem toRat_add (a b : Frac) : toRat (a + b) = toRat a + toRat b := by
  have ha := den_ne_zero_q a
  have hb := den_ne_zero_q b
  show toRat (add a b) = _
  simp only [toRat, add, Int.cast_add, Int.cast_mul, Int.cast_natCast, Nat.cast_mul]
  field_simp

theorem toRat_sub (a b : Frac) : toRat (a - b) = toRat a - toRat b := by
  have ha := den_ne_zero_q a
  have hb := den_ne_zero_q b
  show toRat (sub a b) = _
  simp only [toRat, sub, Int.cast_sub, Int.cast_mul, Int.cast_natCast, Nat.cast_mul]
  field_simp
  ring_nf

theorem toRat_mul (a b : Frac) : toRat (a * b) = toRat a * toRat b := by
  have ha := den_ne_zero_q a
  have hb := den_ne_zero_q b
  show toRat (mul a b) = _
  simp only [toRat, mul, Int.cast_mul, Nat.cast_mul]
  field_simp

theorem toRat_eq_zero_iff (a : Frac) : toRat a = 0 ↔ a.num = 0 := by
  have ha := den_ne_zero_q a
  constructor
  · intro h
    have : (a.num : ℚ) = 0 := by
      field_simp [toRat] at h
      exact_mod_cast h
    exact_mod_cast this
  · intro h
    simp [toRat, h]

theorem toRat_div (a b : Frac) (hb : toRat b ≠ 0) :
    toRat (a / b) = toRat a / toRat b := by
  have hnum : b.num ≠ 0 := fun h => hb ((toRat_eq_zero_iff b).mpr h)
  have ha := den_ne_zero_q a
  have hbd := den_ne_zero_q b
  have hbq : (b.num : ℚ) ≠ 0 := Int.cast_ne_zero.mpr hnum
  show toRat (div a b) = _
  rcases lt_trichotomy b.num 0 with hneg | hz | hpos
  · rw [div, dif_neg hnum, if_pos hneg]
    have habs : ((b.num.natAbs : ℕ) : ℚ) = -(b.num : ℚ) := by
      rw [Int.cast_natAbs, abs_of_neg hneg]
      push_cast
      ring
    simp only [toRat, Int.cast_neg, Int.cast_mul, Int.cast_natCast, Nat.cast_mul, habs]
    field_simp
  · exact absurd hz hnum
  · rw [div, dif_neg hnum, if_neg (not_lt.mpr (le_of_lt hpos))]
    have habs : ((b.num.natAbs : ℕ) : ℚ) = (b.num : ℚ) := by
      rw [Int.cast_natAbs, abs_of_pos hpos]
    simp only [toRat, Int.cast_mul, Int.cast_natCast, Nat.cast_mul, habs]
    field_simp

theorem toRat_lt (a b : Frac) : a < b ↔ toRat a < toRat b := by
  have ha : (0:ℚ) < (a.den : ℚ) := by exact_mod_cast a.den_pos
  have hb : (0:ℚ) < (b.den : ℚ) := by exact_mod_cast b.den_pos
  show flt a b ↔ _
  rw [toRat, toRat, div_lt_div_iff ha hb, flt]
  constructor
  · intro h; exact_mod_cast h
  · intro h; exact_mod_cast h

theorem toRat_le (a b : Frac) : a ≤ b ↔ toRat a ≤ toRat b := by
  have ha : (0:ℚ) < (a.den : ℚ) := by exact_mod_cast a.den_pos
  have hb : (0:ℚ) < (b.den : ℚ) := by exact_mod_cast b.den_pos
  show fle a b ↔ _
  rw [toRat, toRat, div_le_div_iff ha hb, fle]
  constructor
  · intro h; exact_mod_cast h
  · intro h; exact_mod_cast h

theorem toRat_eq (a b : Frac) : toRat a = toRat b ↔ a.num * (b.den : ℤ) = b.num * (a.den : ℤ) := by
  have ha := den_ne_zero_q a
  have hb := den_ne_zero_q b
  rw [toRat, toRat, div_eq_div_iff ha hb]
  constructor
  · intro h; exact_mod_cast h
  · intro h; exact_mod_cast h

theorem toRat_fmin (a b : Frac) : toRat (fmin a b) = min (toRat a) (toRat b) := by
  rw [fmin]
  by_cases h : b < a
  · rw [if_pos h, min_eq_right (le_of_lt ((toRat_lt b a).mp h))]
  · rw [if_neg h, min_eq_left ((toRat_le a b).mpr ?_ |> fun hh => ?_)]
    · exact le_of_not_lt (fun hc => h ((toRat_lt b a).mpr hc))
    · exact le_of_not_lt (fun hc => h ((toRat_lt b a).mpr hc))

theorem toRat_fmax (a b : Frac) : toRat (fmax a b) = max (toRat a) (toRat b) := by
  rw [fmax]
  by_cases h : a < b
  · rw [if_pos h, max_eq_right (le_of_lt ((toRat_lt a b).mp h))]
  · rw [if_neg h, max_eq_left (le_of_not_lt (fun hc => h ((toRat_lt a b).mpr hc)))]

theorem toRat_fabs (a : Frac) : toRat (fabs a) = |toRat a| := by
  rw [fabs]
  have hd : (0:ℚ) < (a.den : ℚ) := by exact_mod_cast a.den_pos
  by_cases h : a.num < 0
  · rw [if_pos h, abs_of_neg]
    · simp [toRat]
      ring
    · rw [toRat]
      apply div_neg_of_neg_of_pos _ hd
      exact_mod_cast h
  · rw [if_neg h, abs_of_nonneg]
    rw [toRat]
    apply div_nonneg _ (le_of_lt hd)
    exact_mod_cast not_lt.mp h

theorem toRat_zero : toRat (0 : Frac) = 0 := by
  show toRat (ofInt 0) = 0
  simp [toRat_ofInt]

end Frac

/-! ### ASCII character model (std::isalpha / toupper / tolower on ASCII) -/

/-- `std::isalpha` restricted to ASCII, as the program uses it. -/
def isalpha (c : Char) : Bool :=
  (65 ≤ c.toNat && c.toNat ≤ 90) || (97 ≤ c.toNat && c.toNat ≤ 122)

/-- `std::isupper` on ASCII. -/
def isupper (c : Char) : Bool := 65 ≤ c.toNat && c.toNat ≤ 90

/-- `std::toupper` on ASCII. -/
def touppc (c : Char) : Char :=
  if 97 ≤ c.toNat && c.toNat ≤ 122 then Char.ofNat (c.toNat - 32) else c

/-- `std::tolower` on ASCII. -/
def tolowc (c : Char) : Char :=
  if 65 ≤ c.toNat && c.toNat ≤ 90 then Char.ofNat (c.toNat + 32) else c

/-- Text is an ordered sequence of characters. -/
abbrev Text := List Char

/-- The fixed 26-letter alphabet `'A'..'Z'`, the key universe of every table. -/
def upperAlphabet : Text :=
  ['A', 'B', 'C', 'D', 'E', 'F', 'G', 'H', 'I', 'J', 'K', 'L', 'M',
   'N', 'O', 'P', 'Q', 'R', 'S', 'T', 'U', 'V', 'W', 'X', 'Y', 'Z']

namespace Utils

/-- `Utils::removeNonAlpha`. -/
def removeNonAlpha (t : Text) : Text := t.filter isalpha

/-- `Utils::toUpperCase`. -/
def toUpperCase (t : Text) : Text := t.map touppc

/-- `Utils::normalizeText`: strip non-letters, then upper-case. -/
def normalizeText (t : Text) : Text := toUpperCase (removeNonAlpha t)

/-- `Utils::isValidInput`: non-empty and at least 50% alphabetic characters
(`alphaCount >= text.length() * 0.5`, exact in binary floating point,
hence `2 * alphaCount ≥ length`). -/
def isValidInput (t : Text) : Bool :=
  if t.isEmpty then false
  else decide (t.length ≤ 2 * (t.filter isalpha).length)

/-- `Utils::split` with the space delimiter: `std::getline` pieces,
empty tokens skipped. -/
def splitTokens (t : Text) : List Text :=
  (t.splitOn ' ').filter (fun w => ¬ w.isEmpty)

end Utils

/-- `CipherBreaker::validateInput`: rejects empty input, then delegates to
`Utils::isValidInput`. -/
def validateInput (t : Text) : Bool :=
  if t.isEmpty then false else Utils.isValidInput t

/-- `CipherBreaker::updateConfidence`: `score / maxScore * 100`, capped into
`[0, 100]` by two sequential corrections. -/
def updateConfidence (score maxScore : Frac) : Frac :=
  if (0 : Frac) < maxScore then
    let c := (score / maxScore) * Frac.ofInt 100
    let c2 := if Frac.ofInt 100 < c then Frac.ofInt 100 else c
    if c2 < (0 : Frac) then (0 : Frac) else c2
  else (0 : Frac)

namespace FrequencyAnalyzer

/-- Count of a given (upper-case) letter among the alphabetic characters of
the text, counted case-insensitively — the entry the C++ `counts` map holds
(0 when the letter is absent, matching a missed map lookup). -/
def letterCount (t : Text) (c : Char) : ℕ :=
  ((t.filter isalpha).map touppc).count c

/-- Total number of alphabetic characters (`totalAlphaChars`). -/
def totalAlphaChars (t : Text) : ℕ := (t.filter isalpha).length

/-- `FrequencyAnalyzer::calculateFrequency` followed by map lookup with the
miss-as-zero convention every consumer uses: percentage
`(count / totalChars) * 100`, an empty (all-zero) table when the text has no
alphabetic characters. -/
def calculateFrequency (t : Text) (c : Char) : Frac :=
  if totalAlphaChars t = 0 then (0 : Frac)
  else (Frac.ofInt (letterCount t c) / Frac.ofInt (totalAlphaChars t)) * Frac.ofInt 100

/-- The built-in English letter-frequency table (percent), entries in the
`std::map` key order. -/
def englishFrequencies : List (Char × Frac) :=
  [('A', Frac.ofPair 812 100), ('B', Frac.ofPair 149 100), ('C', Frac.ofPair 278 100),
   ('D', Frac.ofPair 425 100), ('E', Frac.ofPair 1202 100), ('F', Frac.ofPair 223 100),
   ('G', Frac.ofPair 202 100), ('H', Frac.ofPair 609 100), ('I', Frac.ofPair 697 100),
   ('J', Frac.ofPair 15 100), ('K', Frac.ofPair 77 100), ('L', Frac.ofPair 403 100),
   ('M', Frac.ofPair 241 100), ('N', Frac.ofPair 675 100), ('O', Frac.ofPair 751 100),
   ('P', Frac.ofPair 193 100), ('Q', Frac.ofPair 10 100), ('R', Frac.ofPair 599 100),
   ('S', Frac.ofPair 633 100), ('T', Frac.ofPair 906 100), ('U', Frac.ofPair 276 100),
   ('V', Frac.ofPair 98 100), ('W', Frac.ofPair 236 100), ('X', Frac.ofPair 15 100),
   ('Y', Frac.ofPair 197 100), ('Z', Frac.ofPair 7 100)]

/-- English table as a lookup function (miss yields 0, as consumers treat it). -/
def englishFreq (c : Char) : Frac :=
  ((englishFrequencies.lookup c).getD (0 : Frac))

/-- `FrequencyAnalyzer::chiSquaredTest`: sum over the 26 letters of
`(observed − expected)² / expected`, skipping letters with `expected ≤ 0`. -/
def chiSquaredTest (observed expected : Char → Frac) : Frac :=
  upperAlphabet.foldl
    (fun acc c =>
      if (0 : Frac) < expected c then
        acc + (observed c - expected c) * (observed c - expected c) / expected c
      else acc)
    (0 : Frac)

/-- `FrequencyAnalyzer::calculateIndexOfCoincidence`:
`Σ nᵢ(nᵢ−1) / (N(N−1))`, 0 when `N ≤ 1`. -/
def calculateIndexOfCoincidence (t : Text) : Frac :=
  let N := totalAlphaChars t
  if N ≤ 1 then (0 : Frac)
  else Frac.ofInt (upperAlphabet.foldl
         (fun s c => s + (letterCount t c : ℤ) * ((letterCount t c : ℤ) - 1)) 0)
       / Frac.ofInt (N * (N - 1))

/-- `FrequencyAnalyzer::scoreEnglishness`: `1 / (1 + χ²)` against the English
table (0 if the table were empty — it is a fixed non-empty constant). -/
def scoreEnglishness (t : Text) : Frac :=
  if englishFrequencies.isEmpty then (0 : Frac)
  else Frac.ofInt 1 / (Frac.ofInt 1 + chiSquaredTest (calculateFrequency t) englishFreq)

/-- Bigram windows of a text: the pairs at positions `i, i+1`. -/
def bigramWindows (t : Text) : List (Char × Char) := t.zip t.tail

/-- Trigram windows of a text. -/
def trigramWindows (t : Text) : List (Char × Char × Char) :=
  t.zip (t.tail.zip t.tail.tail)

/-- Lexicographic order on bigrams — the `std::map<std::string, int>` key
order in which `findCommonBigrams` enumerates distinct bigrams. -/
def bigramLe (a b : Char × Char) : Prop :=
  a.1.toNat < b.1.toNat ∨ (a.1 = b.1 ∧ a.2.toNat ≤ b.2.toNat)

instance decBigramLe : DecidableRel bigramLe := fun _ _ =>
  inferInstanceAs (Decidable (_ ∨ _))

/-- Descending-by-score relation used to model the `std::sort` calls that
order `(value, score)` pairs by score, highest first (a stable structural
sort — one deterministic resolution of the unstable `std::sort`). -/
def scoreDescLe {α : Type} (a b : α × Frac) : Prop := b.2 ≤ a.2

instance decScoreDescLe {α : Type} : DecidableRel (@scoreDescLe α) := fun _ _ =>
  inferInstanceAs (Decidable (_ ≤ _))

/-- `FrequencyAnalyzer::findCommonBigrams`: count every bigram window of the
normalized text, convert to percentages of all windows, order highest first
(distinct bigrams enumerated in map key order, then sorted descending),
keep the top `count`. -/
def findCommonBigrams (t : Text) (count : ℕ) : List ((Char × Char) × Frac) :=
  let n := Utils.normalizeText t
  let ws := bigramWindows n
  let tot := ws.length
  let distinct := (ws.dedup).insertionSort bigramLe
  let withFreq := distinct.map
    (fun b => (b, (Frac.ofInt (ws.count b) / Frac.ofInt tot) * Frac.ofInt 100))
  (withFreq.insertionSort scoreDescLe).take count

end FrequencyAnalyzer

namespace CaesarBreaker

/-- Minimum text length below which a candidate's fitness is forced to 0. -/
def minTextLength : ℕ := 20

/-- `CaesarBreaker::caesarShiftChar`: rotate an alphabetic character forward
by `shift` within its case (`(c - base + shift) % 26 + base`, C++ truncating
`%`); non-alphabetic characters unchanged. -/
def caesarShiftChar (c : Char) (shift : ℤ) : Char :=
  if isalpha c then
    let base : ℤ := if isupper c then 65 else 97
    Char.ofNat ((((c.toNat : ℤ) - base + shift).tmod 26 + base).toNat)
  else c

/-- `CaesarBreaker::caesarShift`. -/
def caesarShift (t : Text) (shift : ℤ) : Text := t.map (fun c => caesarShiftChar c shift)

/-- `CaesarBreaker::decrypt` is `caesarShift` with the key itself. -/
def decrypt (t : Text) (key : ℤ) : Text := caesarShift t key

/-- `CaesarBreaker::encrypt` is `caesarShift` with `26 - key`. -/
def encrypt (t : Text) (key : ℤ) : Text := caesarShift t (26 - key)

/-- `CaesarBreaker::calculateChiSquared` (the reference table is a fixed
non-empty constant, otherwise a 1000.0 penalty). -/
def calculateChiSquared (t : Text) : Frac :=
  if FrequencyAnalyzer.englishFrequencies.isEmpty then Frac.ofInt 1000
  else FrequencyAnalyzer.chiSquaredTest
    (FrequencyAnalyzer.calculateFrequency t) FrequencyAnalyzer.englishFreq

/-- `CaesarBreaker::calculateICScore`: `max(0, 1 − |IC − 0.067| · 10)`. -/
def calculateICScore (t : Text) : Frac :=
  Frac.fmax (0 : Frac)
    (Frac.ofInt 1 -
      Frac.fabs (FrequencyAnalyzer.calculateIndexOfCoincidence t - Frac.ofPair 67 1000)
        * Frac.ofInt 10)

/-- The 46 common words hard-coded in `CaesarBreaker::checkCommonPatterns`. -/
def caesarCommonWords : List Text :=
  ["THE", "AND", "FOR", "ARE", "BUT", "NOT", "YOU", "ALL", "CAN", "HER",
   "WAS", "ONE", "OUR", "OUT", "DAY", "GET", "HAS", "HIM", "HIS", "HOW",
   "ITS", "MAY", "NEW", "NOW", "OLD", "SEE", "TWO", "WHO", "BOY", "DID",
   "MAN", "OWN", "SAY", "SHE", "TOO", "USE", "THAT", "WITH", "FROM",
   "HAVE", "THIS", "WILL", "WHAT", "WHEN", "WHERE", "WHICH", "THERE"].map String.toList

/-- The 10 common bigrams checked by `CaesarBreaker::checkCommonPatterns`. -/
def caesarCommonBigrams : List (Char × Char) :=
  [('T','H'), ('H','E'), ('I','N'), ('E','R'), ('A','N'),
   ('R','E'), ('E','D'), ('N','D'), ('O','N'), ('E','N')]

/-- `std::string::find(w) != npos`: `w` occurs as a contiguous substring. -/
def isSubstring (w n : Text) : Bool :=
  (List.range (n.length + 1)).any (fun i => ((n.drop i).take w.length) == w)

/-- `CaesarBreaker::checkCommonPatterns`: fraction of the common-word list
found as substrings of the normalized text, plus half the fraction of the
text's top-10 bigrams that are common English bigrams, capped at 1. -/
def checkCommonPatterns (t : Text) : Frac :=
  let n := Utils.normalizeText t
  let foundWords := caesarCommonWords.countP (fun w => isSubstring w n)
  let score := Frac.ofInt foundWords / Frac.ofInt caesarCommonWords.length
  let bs := FrequencyAnalyzer.findCommonBigrams t 10
  let foundBigrams := bs.countP (fun b => caesarCommonBigrams.contains b.1)
  let score2 := score +
    Frac.ofInt foundBigrams / Frac.ofInt caesarCommonBigrams.length * Frac.ofPair 5 10
  Frac.fmin (Frac.ofInt 1) score2

/-- `CaesarBreaker::normalizeScore`: clamp `(score − minVal)/(maxVal − minVal)`
into `[0, 1]`; 0 when the range is degenerate. -/
def normalizeScore (score minVal maxVal : Frac) : Frac :=
  if maxVal ≤ minVal then (0 : Frac)
  else Frac.fmax (0 : Frac) (Frac.fmin (Frac.ofInt 1) ((score - minVal) / (maxVal - minVal)))

/-- `CaesarBreaker::scoreText`: 0 for texts shorter than `minTextLength`;
otherwise `0.5 · clamp(1/(1+χ²)) + 0.3 · icScore + 0.2 · patternScore`. -/
def scoreText (t : Text) : Frac :=
  if t.length < minTextLength then (0 : Frac)
  else
    let chiScore := calculateChiSquared t
    let icScore := calculateICScore t
    let patternScore := checkCommonPatterns t
    normalizeScore (Frac.ofInt 1 / (Frac.ofInt 1 + chiScore)) (0 : Frac) (Frac.ofInt 1)
        * Frac.ofPair 5 10
      + icScore * Frac.ofPair 3 10
      + patternScore * Frac.ofPair 2 10

/-- `CaesarBreaker::findPossibleKeys` together with its confidence update:
score the 26 shifts of the normalized text (collected in key order), sort
descending by score, and when at least two candidates exist set
`confidence = min(100, (best − secondBest) · 10 + 50)`. -/
def findPossibleKeysPair (t : Text) (confidence : Frac) : List (ℕ × Frac) × Frac :=
  let n := Utils.normalizeText t
  let base : List (ℕ × Frac) :=
    (List.range 26).map (fun k => (k, scoreText (caesarShift n (k : ℤ))))
  let sorted := base.insertionSort FrequencyAnalyzer.scoreDescLe
  let conf2 := if 2 ≤ sorted.length then
      Frac.fmin (Frac.ofInt 100)
        ((sorted[0]!.2 - sorted[1]!.2) * Frac.ofInt 10 + Frac.ofInt 50)
    else confidence
  (sorted, conf2)

/-- `CaesarBreaker::findBestKey`: top-ranked key, 0 when there are none. -/
def findBestKey (t : Text) : ℕ :=
  match (findPossibleKeysPair t (0 : Frac)).1 with
  | [] => 0
  | p :: _ => p.1

/-- `CaesarBreaker::breakCipher` with the solver's confidence state passed
explicitly: invalid input returns the empty string and leaves the
confidence untouched; otherwise decrypt with the best key and report the
updated confidence. -/
def breakCipher (confidence : Frac) (t : Text) : Text × Frac :=
  if ¬ validateInput t then ([], confidence)
  else
    let pair := findPossibleKeysPair t confidence
    let bestKey := match pair.1 with
      | [] => 0
      | p :: _ => p.1
    (decrypt t (bestKey : ℤ), pair.2)

end CaesarBreaker

example : CaesarBreaker.decrypt "URYYB JBEYQ".toList 13 = "HELLO WORLD".toList := by decide
example : CaesarBreaker.decrypt "KHOOR ZRUOG".toList 3 ≠ "HELLO WORLD".toList := by decide
example : CaesarBreaker.decrypt "KHOOR ZRUOG".toList 23 = "HELLO WORLD".toList := by decide
example : Frac.ofPair 1 4 < Frac.ofPair 1 3 := by decide

namespace SubstitutionBreaker

/-- A substitution mapping: the contents of the C++ `std::map<char, char>`,
kept as an association list in ascending key order (the map's iteration
order). -/
abbrev Mapping := List (Char × Char)

/-- Ascending key order of the `std::map`. -/
def keyLe (a b : Char × Char) : Prop := a.1.toNat ≤ b.1.toNat

instance decKeyLe : DecidableRel keyLe := fun _ _ =>
  inferInstanceAs (Decidable (_ ≤ _))

/-- `mapping[key] = value` on an existing-or-new key (`std::map::operator[]`
plus assignment), re-sorted to the map's key order on insertion. -/
def mapSet (m : Mapping) (k v : Char) : Mapping :=
  if (m.lookup k).isSome then m.map (fun p => if p.1 = k then (k, v) else p)
  else (m ++ [(k, v)]).insertionSort keyLe

/-- `SubstitutionBreaker::applyMapping`: map alphabetic characters through
the table case-preservingly, keep unmapped and non-alphabetic characters. -/
def applyMapping (t : Text) (m : Mapping) : Text :=
  t.map (fun c =>
    if isalpha c then
      match m.lookup (touppc c) with
      | some p => if isupper c then p else tolowc p
      | none => c
    else c)

/-- The bigram reference table of `SubstitutionBreaker` (values normalised
to 0–1). -/
def bigramFreqTable : List ((Char × Char) × Frac) :=
  [(('T','H'), Frac.ofPair 271 10000), (('H','E'), Frac.ofPair 233 10000),
   (('I','N'), Frac.ofPair 203 10000), (('E','R'), Frac.ofPair 178 10000),
   (('A','N'), Frac.ofPair 161 10000), (('R','E'), Frac.ofPair 141 10000),
   (('E','D'), Frac.ofPair 117 10000), (('N','D'), Frac.ofPair 107 10000),
   (('O','N'), Frac.ofPair 106 10000), (('E','N'), Frac.ofPair 105 10000),
   (('A','T'), Frac.ofPair 103 10000), (('O','U'), Frac.ofPair 102 10000),
   (('I','T'), Frac.ofPair 100 10000), (('I','S'), Frac.ofPair 98 10000),
   (('O','R'), Frac.ofPair 91 10000), (('T','I'), Frac.ofPair 89 10000),
   (('A','S'), Frac.ofPair 87 10000), (('T','E'), Frac.ofPair 87 10000),
   (('E','T'), Frac.ofPair 76 10000), (('N','G'), Frac.ofPair 76 10000),
   (('O','F'), Frac.ofPair 75 10000), (('A','L'), Frac.ofPair 74 10000),
   (('D','E'), Frac.ofPair 70 10000), (('S','E'), Frac.ofPair 68 10000),
   (('L','E'), Frac.ofPair 66 10000), (('S','A'), Frac.ofPair 63 10000),
   (('S','I'), Frac.ofPair 62 10000), (('A','R'), Frac.ofPair 62 10000),
   (('V','E'), Frac.ofPair 58 10000), (('R','A'), Frac.ofPair 57 10000),
   (('L','D'), Frac.ofPair 57 10000), (('U','R'), Frac.ofPair 56 10000),
   (('T','A'), Frac.ofPair 56 10000), (('R','I'), Frac.ofPair 55 10000),
   (('N','E'), Frac.ofPair 55 10000)]

/-- The trigram reference table of `SubstitutionBreaker`. -/
def trigramFreqTable : List ((Char × Char × Char) × Frac) :=
  [(('T','H','E'), Frac.ofPair 181 10000), (('A','N','D'), Frac.ofPair 73 10000),
   (('I','N','G'), Frac.ofPair 72 10000), (('H','E','R'), Frac.ofPair 36 10000),
   (('H','A','T'), Frac.ofPair 31 10000), (('H','I','S'), Frac.ofPair 31 10000),
   (('T','H','A'), Frac.ofPair 31 10000), (('E','R','E'), Frac.ofPair 31 10000),
   (('F','O','R'), Frac.ofPair 28 10000), (('E','N','T'), Frac.ofPair 28 10000),
   (('I','O','N'), Frac.ofPair 27 10000), (('T','E','R'), Frac.ofPair 24 10000),
   (('H','A','S'), Frac.ofPair 24 10000), (('Y','O','U'), Frac.ofPair 24 10000),
   (('I','T','H'), Frac.ofPair 23 10000), (('V','E','R'), Frac.ofPair 22 10000),
   (('A','L','L'), Frac.ofPair 22 10000), (('W','I','T'), Frac.ofPair 21 10000),
   (('T','H','I'), Frac.ofPair 21 10000), (('T','I','O'), Frac.ofPair 21 10000),
   (('E','S','T'), Frac.ofPair 20 10000), (('A','R','E'), Frac.ofPair 19 10000),
   (('H','E','N'), Frac.ofPair 19 10000), (('R','S','T'), Frac.ofPair 19 10000),
   (('O','U','R'), Frac.ofPair 18 10000), (('O','U','T'), Frac.ofPair 18 10000),
   (('H','A','V'), Frac.ofPair 18 10000), (('A','T','E'), Frac.ofPair 17 10000),
   (('S','T','H'), Frac.ofPair 17 10000), (('V','E','D'), Frac.ofPair 17 10000)]

/-- The common-word set of `SubstitutionBreaker::loadCommonWords` (the C++
`std::set` initialiser lists `WHERE` twice; the set keeps one copy —
membership below is identical). -/
def commonWordsList : List Text :=
  ["THE", "AND", "FOR", "ARE", "BUT", "NOT", "YOU", "ALL", "CAN", "HER",
   "WAS", "ONE", "OUR", "OUT", "DAY", "GET", "HAS", "HIM", "HIS", "HOW",
   "ITS", "MAY", "NEW", "NOW", "OLD", "SEE", "TWO", "WHO", "BOY", "DID",
   "MAN", "OWN", "SAY", "SHE", "TOO", "USE", "THAT", "WITH", "FROM", "THIS",
   "HAVE", "WILL", "WHAT", "WHEN", "WHERE", "WHICH", "THERE", "WOULD", "ABOUT",
   "AFTER", "FIRST", "NEVER", "THESE", "THINK", "BEING", "EVERY",
   "GREAT", "MIGHT", "SHALL", "STILL", "THOSE", "UNDER", "WHILE", "COULD"].map String.toList

/-- `SubstitutionBreaker::calculateBigramScore`: sum the reference frequency
of every bigram window of the normalized text (0 when absent), divided by
the number of windows. -/
def calculateBigramScore (t : Text) : Frac :=
  let n := Utils.normalizeText t
  let ws := FrequencyAnalyzer.bigramWindows n
  let score := ws.foldl
    (fun acc w => match bigramFreqTable.lookup w with
      | some v => acc + v
      | none => acc) (0 : Frac)
  if 0 < ws.length then score / Frac.ofInt ws.length else (0 : Frac)

/-- `SubstitutionBreaker::calculateTrigramScore`. -/
def calculateTrigramScore (t : Text) : Frac :=
  let n := Utils.normalizeText t
  let ws := FrequencyAnalyzer.trigramWindows n
  let score := ws.foldl
    (fun acc w => match trigramFreqTable.lookup w with
      | some v => acc + v
      | none => acc) (0 : Frac)
  if 0 < ws.length then score / Frac.ofInt ws.length else (0 : Frac)

/-- `SubstitutionBreaker::calculateWordScore`: of the space-separated tokens
whose normalized form has at least 3 letters, the fraction found in the
common-word set. -/
def calculateWordScore (t : Text) : Frac :=
  let words := Utils.splitTokens t
  let eligible := words.filter (fun w => 3 ≤ (Utils.normalizeText w).length)
  let found := eligible.countP (fun w => commonWordsList.contains (Utils.normalizeText w))
  if 0 < eligible.length then Frac.ofInt found / Frac.ofInt eligible.length
  else (0 : Frac)

/-- `SubstitutionBreaker::calculateCombinedScore`:
`freq·0.3 + bigram·0.3 + trigram·0.2 + word·0.2`. -/
def calculateCombinedScore (freqScore bigramScore trigramScore wordScore : Frac) : Frac :=
  freqScore * Frac.ofPair 3 10 + bigramScore * Frac.ofPair 3 10
    + trigramScore * Frac.ofPair 2 10 + wordScore * Frac.ofPair 2 10

/-- `SubstitutionBreaker::scorePlaintext`. -/
def scorePlaintext (t : Text) : Frac :=
  calculateCombinedScore (FrequencyAnalyzer.scoreEnglishness t)
    (calculateBigramScore t) (calculateTrigramScore t) (calculateWordScore t)

/-- `SubstitutionBreaker::scoreMapping`. -/
def scoreMapping (m : Mapping) (t : Text) : Frac := scorePlaintext (applyMapping t m)

/-- `SubstitutionBreaker::completeMapping`: assign every still-unmapped
cipher letter to the next unused plain letter, both taken in alphabet
order. -/
def completeMapping (m : Mapping) : Mapping :=
  let usedPlain := m.map Prod.snd
  let unusedCipher := upperAlphabet.filter (fun c => (m.lookup c).isNone)
  let unusedPlain := upperAlphabet.filter (fun c => ¬ usedPlain.contains c)
  (m ++ unusedCipher.zip unusedPlain).insertionSort keyLe

/-- `SubstitutionBreaker::generateMapping`: pair the text's letters sorted by
descending frequency with the reference letters sorted by descending
frequency, then complete to a full mapping. -/
def generateMapping (t : Text) : Mapping :=
  let n := Utils.normalizeText t
  let cipherPairs : List (Char × Frac) :=
    (upperAlphabet.filter (fun c => 0 < FrequencyAnalyzer.letterCount n c)).map
      (fun c => (c, FrequencyAnalyzer.calculateFrequency n c))
  let cipherSorted := cipherPairs.insertionSort FrequencyAnalyzer.scoreDescLe
  let englishSorted :=
    FrequencyAnalyzer.englishFrequencies.insertionSort FrequencyAnalyzer.scoreDescLe
  let seed := (cipherSorted.map Prod.fst).zip (englishSorted.map Prod.fst)
  completeMapping seed

/-- The 10 common English bigrams that `improveMappingWithBigrams` matches
against, in rank order. -/
def refinementBigrams : List (Char × Char) :=
  [('T','H'), ('H','E'), ('I','N'), ('E','R'), ('A','N'),
   ('R','E'), ('E','D'), ('N','D'), ('O','N'), ('E','N')]

/-- `SubstitutionBreaker::improveMappingWithBigrams`: for the i-th most
common ciphertext bigram and the i-th reference bigram, tentatively remap
the two cipher letters to the two reference letters; keep the change only
when the score strictly improves. -/
def improveMappingWithBigrams (m0 : Mapping) (t : Text) : Mapping :=
  let n := Utils.normalizeText t
  let cipherBigrams := FrequencyAnalyzer.findCommonBigrams n 10
  ((cipherBigrams.map Prod.fst).zip refinementBigrams).foldl
    (fun m cb =>
      let test := mapSet (mapSet m cb.1.1 cb.2.1) cb.1.2 cb.2.2
      if scoreMapping m t < scoreMapping test t then test else m)
    m0

/-- `SubstitutionBreaker::generateNeighborMapping`, with the two uniform
random draws supplied as the values `r1, r2` (reduced into range; the C++
code redraws until the two indices differ, a swap of a key with itself is
the identity either way): swap the plain-letter images of two cipher
letters. -/
def generateNeighborMapping (m : Mapping) (r1 r2 : ℕ) : Mapping :=
  let cipherChars := m.map Prod.fst
  if cipherChars.length < 2 then m
  else
    let c1 := cipherChars[r1 % cipherChars.length]!
    let c2 := cipherChars[r2 % cipherChars.length]!
    let v1 := (m.lookup c1).getD c1
    let v2 := (m.lookup c2).getD c2
    mapSet (mapSet m c1 v2) c2 v1

/-- One iteration of `SubstitutionBreaker::hillClimbOptimization`: generate a
neighbor and adopt it only when its score strictly exceeds the current
score. -/
def hillClimbStep (t : Text) (st : Mapping × Frac) (r : ℕ × ℕ) : Mapping × Frac :=
  let neighbor := generateNeighborMapping st.1 r.1 r.2
  let neighborScore := scoreMapping neighbor t
  if st.2 < neighborScore then (neighbor, neighborScore) else st

/-- `SubstitutionBreaker::hillClimbOptimization`: iterate `hillClimbStep`
once per entry of `rands`, the stream of random index pairs (one pair per
loop iteration of the C++ code, whose count is the iteration budget). -/
def hillClimbOptimization (m0 : Mapping) (t : Text) (rands : List (ℕ × ℕ)) :
    Mapping × Frac :=
  rands.foldl (hillClimbStep t) (m0, scoreMapping m0 t)

/-- `SubstitutionBreaker::breakCipher` in the default hybrid mode, with the
confidence state and the random stream passed explicitly: invalid input
returns the empty string with the confidence untouched; otherwise
seed → bigram refinement → hill climbing, apply the final mapping and set
`confidence = clamp(finalScore·100, 0, 100)`. -/
def breakCipher (confidence : Frac) (t : Text) (rands : List (ℕ × ℕ)) : Text × Frac :=
  if ¬ validateInput t then ([], confidence)
  else
    let initialMapping := generateMapping t
    let bigramMapping := improveMappingWithBigrams initialMapping t
    let bestMapping := (hillClimbOptimization bigramMapping t rands).1
    let result := applyMapping t bestMapping
    let finalScore := scoreMapping bestMapping t
    (result, updateConfidence finalScore (Frac.ofInt 1))

/-- The invariant of the spec's SubstitutionMapping data type: the mapping
is a permutation of the 26 letters — every cipher letter maps to exactly
one plain letter, every plain letter is used exactly once. -/
def isFullPermutation (m : Mapping) : Prop :=
  (m.map Prod.fst).Perm upperAlphabet ∧ (m.map Prod.snd).Perm upperAlphabet

instance decIsFullPermutation (m : Mapping) : Decidable (isFullPermutation m) :=
  inferInstanceAs (Decidable (_ ∧ _))

end SubstitutionBreaker

namespace VigenereBreaker

/-- Default key-length search range and Kasiski minimum substring length. -/
def minKeyLength : ℕ := 2

/-- Upper end of the default key-length search range. -/
def maxKeyLength : ℕ := 20

/-- Minimum repeated-substring length for the Kasiski examination. -/
def minSubstringLength : ℕ := 3

/-- `VigenereBreaker::charToShift`: `'A'..'Z'`/`'a'..'z'` to `0..25`, anything
else to 0. -/
def charToShift (c : Char) : ℕ :=
  if isalpha c then (touppc c).toNat - 65 else 0

/-- `VigenereBreaker::shiftToChar`: `'A' + shift % 26`. -/
def shiftToChar (shift : ℕ) : Char := Char.ofNat (65 + shift % 26)

/-- `VigenereBreaker::vigenereShift` — identical arithmetic to the Caesar
character shift. -/
def vigenereShift (c : Char) (shift : ℤ) : Char :=
  if isalpha c then
    let base : ℤ := if isupper c then 65 else 97
    Char.ofNat ((((c.toNat : ℤ) - base + shift).tmod 26 + base).toNat)
  else c

/-- The loop body of `VigenereBreaker::encrypt`, with the running absolute
character index `i` explicit: alphabetic characters are shifted by the key
character at `i mod |key|`, everything else is copied; every character
advances the index. -/
def encryptFrom (key : Text) : ℕ → Text → Text
  | _, [] => []
  | i, c :: cs =>
    (if isalpha c then
        vigenereShift c ((charToShift (touppc (key[i % key.length]!)) : ℤ))
      else c) :: encryptFrom key (i + 1) cs

/-- `VigenereBreaker::encrypt`: empty key returns the text unchanged. -/
def encrypt (t key : Text) : Text :=
  if key.isEmpty then t else encryptFrom key 0 t

/-- The loop body of `VigenereBreaker::decrypt` (shift by `26 − s`). -/
def decryptFrom (key : Text) : ℕ → Text → Text
  | _, [] => []
  | i, c :: cs =>
    (if isalpha c then
        vigenereShift c ((26 : ℤ) - (charToShift (touppc (key[i % key.length]!)) : ℤ))
      else c) :: decryptFrom key (i + 1) cs

/-- `VigenereBreaker::decrypt`: empty key returns the text unchanged. -/
def decrypt (t key : Text) : Text :=
  if key.isEmpty then t else decryptFrom key 0 t

/-- `VigenereBreaker::splitByKeyPosition`: column `p` collects the characters
at positions congruent to `p` modulo the key length, in order. -/
def splitByKeyPosition (t : Text) (keyLength : ℕ) : List Text :=
  (List.range keyLength).map
    (fun p => (t.enum.filter (fun ia => ia.1 % keyLength = p)).map Prod.snd)

/-- `VigenereBreaker::calculateICForKeyLength`: the average index of
coincidence over the columns holding at least 2 characters (0 when none
qualifies). -/
def calculateICForKeyLength (t : Text) (keyLength : ℕ) : Frac :=
  let substrings := splitByKeyPosition t keyLength
  let valid := substrings.filter (fun s => 2 ≤ s.length)
  if 0 < valid.length then
    (valid.foldl (fun acc s => acc + FrequencyAnalyzer.calculateIndexOfCoincidence s)
      (0 : Frac)) / Frac.ofInt valid.length
  else (0 : Frac)

/-- The substring of `t` starting at `i` with length `len`
(`std::string::substr`). -/
def substrRange (t : Text) (i len : ℕ) : Text := (t.drop i).take len

/-- The distinct candidate patterns of `findRepeatingSubstrings`: every
substring of length `minSubstringLength..10`, first occurrences first (the
enumeration order does not influence any score derived from them). -/
def patternList (t : Text) : List Text :=
  ((List.range t.length).foldr
    (fun i acc =>
      ((List.range' minSubstringLength (10 - minSubstringLength + 1)).filterMap
        (fun len => if i + len ≤ t.length then some (substrRange t i len) else none))
        ++ acc)
    []).dedup

/-- The (ascending) occurrence positions of a pattern. -/
def occurrencesOf (t s : Text) : List ℕ :=
  (List.range (t.length + 1 - s.length)).filter (fun i => substrRange t i s.length == s)

/-- The Kasiski distances a repeated pattern contributes: distance of every
later occurrence from the first one, kept when at least `minKeyLength`. -/
def patternDistances (t s : Text) : List ℕ :=
  match occurrencesOf t s with
  | [] => []
  | p0 :: rest => (rest.map (fun p => p - p0)).filter (fun d => minKeyLength ≤ d)

/-- All Kasiski distances of the text (multiset union over the repeating
patterns, as `kasiskiExamination` collects them). -/
def allDistances (t : Text) : List ℕ :=
  ((patternList t).filter (fun s => 2 ≤ (occurrencesOf t s).length)).foldr
    (fun s acc => patternDistances t s ++ acc) []

/-- `factorCounts[L]` of `VigenereBreaker::analyzeDistancePatterns`: how many
collected distances the candidate length `L` divides (the code only tries
factors `≤ distance`, which is implied by divisibility of a positive
distance). -/
def factorCount (t : Text) (l : ℕ) : ℕ :=
  (allDistances t).countP (fun d => l ≤ d && d % l = 0)

/-- The maximal factor count over the candidate range (0 when the counts map
is empty). -/
def maxFactorCount (t : Text) : ℕ :=
  ((List.range' minKeyLength (maxKeyLength - minKeyLength + 1)).map (factorCount t)).foldr
    max 0

/-- The Kasiski score of a candidate length: its factor count normalised by
the maximal count (0 when there is nothing to normalise — a missing map
entry reads as 0 where it is consumed). -/
def kasiskiScoreFn (t : Text) (l : ℕ) : Frac :=
  if maxFactorCount t = 0 then (0 : Frac)
  else Frac.ofInt (factorCount t l) / Frac.ofInt (maxFactorCount t)

/-- `VigenereBreaker::kasiskiExamination`: empty when no distances were
collected; otherwise the in-range lengths holding a factor-count entry,
scored and sorted descending. -/
def kasiskiExamination (t : Text) : List (ℕ × Frac) :=
  if (allDistances t).isEmpty then []
  else
    (((List.range' minKeyLength (maxKeyLength - minKeyLength + 1)).filter
        (fun l => 0 < factorCount t l)).map
      (fun l => (l, kasiskiScoreFn t l))).insertionSort FrequencyAnalyzer.scoreDescLe

/-- `VigenereBreaker::indexOfCoincidenceMethod`: IC score of every length in
the range, sorted descending. -/
def indexOfCoincidenceMethod (t : Text) : List (ℕ × Frac) :=
  (((List.range' minKeyLength (maxKeyLength - minKeyLength + 1)).map
    (fun l => (l, calculateICForKeyLength t l)))).insertionSort FrequencyAnalyzer.scoreDescLe

/-- `combinedScores[k] += v` of `combineKeyLengthResults` — `operator[]`
inserts a zero entry when the key is new (kept in the map's ascending key
order). -/
def addToMap (m : List (ℕ × Frac)) (k : ℕ) (v : Frac) : List (ℕ × Frac) :=
  if (m.lookup k).isSome then m.map (fun p => if p.1 = k then (k, p.2 + v) else p)
  else (m ++ [(k, (0 : Frac) + v)]).insertionSort (fun a b => a.1 ≤ b.1)

/-- `VigenereBreaker::combineKeyLengthResults`: accumulate
`0.6 · kasiski + 0.4 · ic` per length in a map, then return the lengths
sorted by descending combined score. -/
def combineKeyLengthResults (kas ic : List (ℕ × Frac)) : List ℕ :=
  let m1 := kas.foldl (fun m r => addToMap m r.1 (r.2 * Frac.ofPair 6 10)) []
  let m2 := ic.foldl (fun m r => addToMap m r.1 (r.2 * Frac.ofPair 4 10)) m1
  (m2.insertionSort FrequencyAnalyzer.scoreDescLe).map Prod.fst

/-- `VigenereBreaker::findKeyLength`. -/
def findKeyLength (t : Text) : List ℕ :=
  let n := Utils.normalizeText t
  combineKeyLengthResults (kasiskiExamination n) (indexOfCoincidenceMethod n)

/-- `VigenereBreaker::findSubkey`: best Caesar key of a column, as a key
character. -/
def findSubkey (s : Text) : Char :=
  if s.isEmpty then 'A' else shiftToChar (CaesarBreaker.findBestKey s)

/-- `VigenereBreaker::findKey`: solve each column of the normalized text as
a Caesar cipher; empty columns contribute `'A'`. -/
def findKey (t : Text) (keyLength : ℕ) : Text :=
  let n := Utils.normalizeText t
  let substrings := splitByKeyPosition n keyLength
  (List.range keyLength).map
    (fun p =>
      match substrings[p]? with
      | some s => if s.isEmpty then 'A' else findSubkey s
      | none => 'A')

/-- `VigenereBreaker::scorePlaintext` is the englishness score alone. -/
def scorePlaintext (t : Text) : Frac := FrequencyAnalyzer.scoreEnglishness t

/-- `VigenereBreaker::breakCipher` with the confidence state explicit:
invalid input and an empty candidate list return the empty string with the
confidence untouched; a single candidate length is used directly; several
candidates keep the strictly best-scoring full decryption (initial best
score 0 and empty result). -/
def breakCipher (confidence : Frac) (t : Text) : Text × Frac :=
  if ¬ validateInput t then ([], confidence)
  else
    match findKeyLength t with
    | [] => ([], confidence)
    | [l] =>
      let key := findKey t l
      let decrypted := decrypt t key
      (decrypted, updateConfidence (scorePlaintext decrypted) (Frac.ofInt 1))
    | ls =>
      let best := ls.foldl
        (fun acc l =>
          let key := findKey t l
          let decrypted := decrypt t key
          let score := scorePlaintext decrypted
          if acc.2 < score then (decrypted, score) else acc)
        (([] : Text), (0 : Frac))
      (best.1, updateConfidence best.2 (Frac.ofInt 1))

end VigenereBreaker

set_option maxRecDepth 100000

/-! ### Character-shift toolkit -/

theorem toNat_ofNat_small (n : ℕ) (h : n < 55296) : (Char.ofNat n).toNat = n := by
  rw [Char.ofNat, dif_pos (Or.inl h)]
  rfl

theorem isalpha_cases {c : Char} (h : isalpha c = true) :
    (65 ≤ c.toNat ∧ c.toNat ≤ 90) ∨ (97 ≤ c.toNat ∧ c.toNat ≤ 122) := by
  simpa [isalpha] using h

theorem isalpha_of_upper {c : Char} (h1 : 65 ≤ c.toNat) (h2 : c.toNat ≤ 90) :
    isalpha c = true := by
  simp [isalpha, h1, h2]

theorem isalpha_of_lower {c : Char} (h1 : 97 ≤ c.toNat) (h2 : c.toNat ≤ 122) :
    isalpha c = true := by
  simp [isalpha, h1, h2]

theorem isupper_of_upper {c : Char} (h1 : 65 ≤ c.toNat) (h2 : c.toNat ≤ 90) :
    isupper c = true := by
  simp [isupper, h1, h2]

theorem not_isupper_of_lower {c : Char} (h1 : 97 ≤ c.toNat) :
    isupper c = false := by
  simp [isupper]
  omega

/-- Value of the Caesar/Vigenère character rotation on an upper-case letter,
as plain natural arithmetic. -/
theorem caesarShiftChar_upper {c : Char} (s : ℕ) (h1 : 65 ≤ c.toNat) (h2 : c.toNat ≤ 90) :
    CaesarBreaker.caesarShiftChar c (s : ℤ) = Char.ofNat (65 + (c.toNat - 65 + s) % 26) := by
  rw [CaesarBreaker.caesarShiftChar, if_pos (isalpha_of_upper h1 h2)]
  simp only [isupper_of_upper h1 h2, if_true]
  congr 1
  have harg : (0:ℤ) ≤ (c.toNat : ℤ) - 65 + (s : ℤ) := by omega
  rw [Int.tmod_eq_emod harg (by norm_num)]
  have heq : (c.toNat : ℤ) - 65 + (s : ℤ) = ((c.toNat - 65 + s : ℕ) : ℤ) := by omega
  rw [heq]
  omega

/-- The same for a lower-case letter. -/
theorem caesarShiftChar_lower {c : Char} (s : ℕ) (h1 : 97 ≤ c.toNat) (h2 : c.toNat ≤ 122) :
    CaesarBreaker.caesarShiftChar c (s : ℤ) = Char.ofNat (97 + (c.toNat - 97 + s) % 26) := by
  rw [CaesarBreaker.caesarShiftChar, if_pos (isalpha_of_lower h1 h2)]
  simp only [not_isupper_of_lower h1, Bool.false_eq_true, if_false]
  congr 1
  have harg : (0:ℤ) ≤ (c.toNat : ℤ) - 97 + (s : ℤ) := by omega
  rw [Int.tmod_eq_emod harg (by norm_num)]
  have heq : (c.toNat : ℤ) - 97 + (s : ℤ) = ((c.toNat - 97 + s : ℕ) : ℤ) := by omega
  rw [heq]
  omega

theorem caesarShiftChar_nonalpha {c : Char} (s : ℤ) (h : isalpha c = false) :
    CaesarBreaker.caesarShiftChar c s = c := by
  rw [CaesarBreaker.caesarShiftChar, if_neg (by simp [h])]

/-- The Vigenère character shift is character-for-character the Caesar one. -/
theorem vigenereShift_eq_caesarShiftChar (c : Char) (s : ℤ) :
    VigenereBreaker.vigenereShift c s = CaesarBreaker.caesarShiftChar c s := rfl

/-- Composing two non-negative rotations adds the shifts. -/
theorem caesarShiftChar_comp (c : Char) (a b : ℕ) (ha : isalpha c = true) :
    CaesarBreaker.caesarShiftChar (CaesarBreaker.caesarShiftChar c (a : ℤ)) (b : ℤ)
      = CaesarBreaker.caesarShiftChar c ((a + b : ℕ) : ℤ) := by
  rcases isalpha_cases ha with ⟨h1, h2⟩ | ⟨h1, h2⟩
  · rw [caesarShiftChar_upper a h1 h2]
    have hv : 65 + (c.toNat - 65 + a) % 26 < 55296 := by omega
    have ht := toNat_ofNat_small _ hv
    have hb1 : 65 ≤ (Char.ofNat (65 + (c.toNat - 65 + a) % 26)).toNat := by omega
    have hb2 : (Char.ofNat (65 + (c.toNat - 65 + a) % 26)).toNat ≤ 90 := by
      rw [ht]
      omega
    rw [caesarShiftChar_upper b hb1 hb2, caesarShiftChar_upper (a + b) h1 h2, ht]
    congr 1
    omega
  · rw [caesarShiftChar_lower a h1 h2]
    have hv : 97 + (c.toNat - 97 + a) % 26 < 55296 := by omega
    have ht := toNat_ofNat_small _ hv
    have hb1 : 97 ≤ (Char.ofNat (97 + (c.toNat - 97 + a) % 26)).toNat := by omega
    have hb2 : (Char.ofNat (97 + (c.toNat - 97 + a) % 26)).toNat ≤ 122 := by
      rw [ht]
      omega
    rw [caesarShiftChar_lower b hb1 hb2, caesarShiftChar_lower (a + b) h1 h2, ht]
    congr 1
    omega

/-- A rotation by a multiple of 26 is the identity. -/
theorem caesarShiftChar_mod26_self (c : Char) (a : ℕ) (h26 : a % 26 = 0) :
    CaesarBreaker.caesarShiftChar c (a : ℤ) = c := by
  by_cases ha : isalpha c = true
  · rcases isalpha_cases ha with ⟨h1, h2⟩ | ⟨h1, h2⟩
    · rw [caesarShiftChar_upper a h1 h2]
      have heq : 65 + (c.toNat - 65 + a) % 26 = c.toNat := by omega
      rw [heq, Char.ofNat_toNat]
    · rw [caesarShiftChar_lower a h1 h2]
      have heq : 97 + (c.toNat - 97 + a) % 26 = c.toNat := by omega
      rw [heq, Char.ofNat_toNat]
  · exact caesarShiftChar_nonalpha _ (Bool.not_eq_true _ ▸ Bool.of_not_eq_true ha)

/-- The spec's "rotate each alphabetic character by −s within its case":
subtract `s` (mod 26) from the letter index; non-alphabetic characters are
unchanged.  Written from the spec's words, for comparison with the code's
`decrypt`. -/
def specRotateMinusChar (c : Char) (s : ℕ) : Char :=
  if isalpha c then
    let base := if isupper c then 65 else 97
    Char.ofNat (base + (c.toNat - base + (26 - s % 26)) % 26)
  else c

/-- Rotation of a whole text by −s, per the spec. -/
def specRotateMinus (t : Text) (s : ℕ) : Text := t.map (fun c => specRotateMinusChar c s)

theorem specRotateMinusChar_eq_shift (c : Char) (s : ℕ) (hs : s ≤ 25) :
    specRotateMinusChar c ((26 - s) % 26) = CaesarBreaker.caesarShiftChar c (s : ℤ) := by
  by_cases ha : isalpha c = true
  · rcases isalpha_cases ha with ⟨h1, h2⟩ | ⟨h1, h2⟩
    · rw [caesarShiftChar_upper s h1 h2, specRotateMinusChar, if_pos ha]
      simp only [isupper_of_upper h1 h2, if_true]
      congr 1
      omega
    · rw [caesarShiftChar_lower s h1 h2, specRotateMinusChar, if_pos ha]
      simp only [not_isupper_of_lower h1, Bool.false_eq_true, if_false]
      congr 1
      omega
  · have hf : isalpha c = false := Bool.of_not_eq_true ha
    rw [caesarShiftChar_nonalpha _ hf, specRotateMinusChar, if_neg (by simp [hf])]

/-- C1, counterexample: the code's `decrypt` does not rotate by −s — at
shift 3 the spec's promised end-to-end example fails. -/
theorem c1_decrypt_direction_counterexample :
    CaesarBreaker.decrypt "KHOOR ZRUOG".toList 3 ≠ "HELLO WORLD".toList := by
  decide

/-- C1 (amended): `CaesarBreaker.decrypt(text, s)` rotates each alphabetic
character by +s within its case — equivalently by −(26−s) mod 26 — and
leaves non-alphabetic characters unchanged; in particular
`decrypt("KHOOR ZRUOG", 23) == "HELLO WORLD"` and
`decrypt("URYYB JBEYQ", 13) == "HELLO WORLD"`. -/
theorem c1_decrypt_rotates_forward (t : Text) (s : ℕ) (hs : s ≤ 25) :
    CaesarBreaker.decrypt t (s : ℤ) = specRotateMinus t ((26 - s) % 26)
      ∧ CaesarBreaker.decrypt "KHOOR ZRUOG".toList 23 = "HELLO WORLD".toList
      ∧ CaesarBreaker.decrypt "URYYB JBEYQ".toList 13 = "HELLO WORLD".toList := by
  refine ⟨?_, by decide, by decide⟩
  rw [CaesarBreaker.decrypt, CaesarBreaker.caesarShift, specRotateMinus]
  exact List.map_congr_left (fun c _ => (specRotateMinusChar_eq_shift c s hs).symm)

/-- Witness for C1's amended theorem at shift 3. -/
theorem c1_decrypt_rotates_forward_witness :
    CaesarBreaker.decrypt "KHOOR ZRUOG".toList 3
      = specRotateMinus "KHOOR ZRUOG".toList 23 :=
  (c1_decrypt_rotates_forward "KHOOR ZRUOG".toList 3 (by decide)).1

/-- `isalpha` is preserved by a non-negative character rotation. -/
theorem isalpha_caesarShiftChar (c : Char) (s : ℕ) :
    isalpha (CaesarBreaker.caesarShiftChar c (s : ℤ)) = isalpha c := by
  by_cases ha : isalpha c = true
  · rcases isalpha_cases ha with ⟨h1, h2⟩ | ⟨h1, h2⟩
    · rw [caesarShiftChar_upper s h1 h2, ha]
      have ht := toNat_ofNat_small (65 + (c.toNat - 65 + s) % 26) (by omega)
      exact isalpha_of_upper (by omega) (by omega)
    · rw [caesarShiftChar_lower s h1 h2, ha]
      have ht := toNat_ofNat_small (97 + (c.toNat - 97 + s) % 26) (by omega)
      exact isalpha_of_lower (by omega) (by omega)
  · have hf : isalpha c = false := Bool.of_not_eq_true ha
    rw [caesarShiftChar_nonalpha _ hf, hf]

/-- Round trip of the two character rotations used by the Caesar pair. -/
theorem caesarShiftChar_roundtrip (c : Char) (a b : ℕ) (hab : (a + b) % 26 = 0) :
    CaesarBreaker.caesarShiftChar (CaesarBreaker.caesarShiftChar c (a : ℤ)) (b : ℤ) = c := by
  by_cases ha : isalpha c = true
  · rw [caesarShiftChar_comp c a b ha]
    exact caesarShiftChar_mod26_self c (a + b) hab
  · have hf : isalpha c = false := Bool.of_not_eq_true ha
    rw [caesarShiftChar_nonalpha _ hf, caesarShiftChar_nonalpha _ hf]

theorem touppc_bounds_of_alpha {c : Char} (h : isalpha c = true) :
    65 ≤ (touppc c).toNat ∧ (touppc c).toNat ≤ 90 := by
  rcases isalpha_cases h with ⟨h1, h2⟩ | ⟨h1, h2⟩
  · rw [touppc, if_neg (by simp; omega)]
    omega
  · rw [touppc, if_pos (by simp; omega)]
    have := toNat_ofNat_small (c.toNat - 32) (by omega)
    omega

theorem charToShift_le (c : Char) : VigenereBreaker.charToShift c ≤ 25 := by
  rw [VigenereBreaker.charToShift]
  by_cases h : isalpha c = true
  · rw [if_pos h]
    have := touppc_bounds_of_alpha h
    omega
  · rw [if_neg h]
    omega

theorem decryptFrom_encryptFrom (key : Text) :
    ∀ (t : Text) (i : ℕ),
      VigenereBreaker.decryptFrom key i (VigenereBreaker.encryptFrom key i t) = t := by
  intro t
  induction t with
  | nil => intro i; rfl
  | cons c cs ih =>
    intro i
    rw [VigenereBreaker.encryptFrom]
    set s := VigenereBreaker.charToShift (touppc (key[i % key.length]!)) with hs
    have hs25 : s ≤ 25 := charToShift_le _
    by_cases ha : isalpha c = true
    · rw [if_pos ha, VigenereBreaker.decryptFrom]
      have he : isalpha (VigenereBreaker.vigenereShift c (s : ℤ)) = true := by
        rw [vigenereShift_eq_caesarShiftChar, isalpha_caesarShiftChar]
        exact ha
      rw [if_pos he, ih (i + 1)]
      congr 1
      have hcast : (26:ℤ) - (s : ℤ) = (((26 - s : ℕ)) : ℤ) := by omega
      rw [hcast, vigenereShift_eq_caesarShiftChar, vigenereShift_eq_caesarShiftChar]
      exact caesarShiftChar_roundtrip c s (26 - s) (by omega)
    · have hf : isalpha c = false := Bool.of_not_eq_true ha
      rw [if_neg ha, VigenereBreaker.decryptFrom, if_neg (by simp [hf]), ih (i + 1)]

/-- C3, counterexample: the round trip returns the original text verbatim,
not its normalized (upper-cased, letters-only) form — the claimed equation
fails on any text that is not already normalized. -/
theorem c3_roundtrip_counterexample :
    CaesarBreaker.decrypt (CaesarBreaker.encrypt "hello, world!".toList 3) 3
      ≠ Utils.normalizeText "hello, world!".toList := by
  decide

/-- C3 (amended): for every text, every Caesar key s ∈ [0,25] and every
non-empty keyword, `decrypt(encrypt(text, key), key)` returns `text`
itself (hence its normalization equals `normalize(text)`; the claimed
equality with `normalize(text)` holds only for already-normalized text),
for both the Caesar and the Vigenère pair. -/
theorem c3_roundtrip_identity :
    (∀ (t : Text) (s : ℕ), s ≤ 25 →
        CaesarBreaker.decrypt (CaesarBreaker.encrypt t (s : ℤ)) (s : ℤ) = t)
      ∧ (∀ (t key : Text), key ≠ [] →
        VigenereBreaker.decrypt (VigenereBreaker.encrypt t key) key = t) := by
  constructor
  · intro t s hs
    rw [CaesarBreaker.encrypt, CaesarBreaker.decrypt, CaesarBreaker.caesarShift,
      CaesarBreaker.caesarShift, List.map_map]
    have hcast : (26:ℤ) - (s : ℤ) = (((26 - s : ℕ)) : ℤ) := by omega
    have : ∀ c, CaesarBreaker.caesarShiftChar (CaesarBreaker.caesarShiftChar c (26 - (s:ℤ))) (s:ℤ) = c := by
      intro c
      rw [hcast]
      exact caesarShiftChar_roundtrip c (26 - s) s (by omega)
    calc t.map (fun c => CaesarBreaker.caesarShiftChar (CaesarBreaker.caesarShiftChar c (26 - (s:ℤ))) (s:ℤ))
        = t.map id := List.map_congr_left (fun c _ => this c)
      _ = t := List.map_id t
  · intro t key hk
    have hke : key.isEmpty = false := by
      cases key with
      | nil => exact absurd rfl hk
      | cons a l => rfl
    rw [VigenereBreaker.encrypt, VigenereBreaker.decrypt, if_neg (by simp [hke]),
      if_neg (by simp [hke])]
    exact decryptFrom_encryptFrom key t 0

/-- Witness for C3's amended theorem on a concrete mixed-case text. -/
theorem c3_roundtrip_identity_witness :
    CaesarBreaker.decrypt (CaesarBreaker.encrypt "Hello, World!".toList 5) 5
        = "Hello, World!".toList
      ∧ VigenereBreaker.decrypt
          (VigenereBreaker.encrypt "Hello, World!".toList "KEY".toList) "KEY".toList
        = "Hello, World!".toList :=
  ⟨c3_roundtrip_identity.1 "Hello, World!".toList 5 (by decide),
   c3_roundtrip_identity.2 "Hello, World!".toList "KEY".toList (by decide)⟩

theorem encryptFrom_length (key : Text) :
    ∀ (t : Text) (i : ℕ), (VigenereBreaker.encryptFrom key i t).length = t.length := by
  intro t
  induction t with
  | nil => intro i; rfl
  | cons c cs ih =>
    intro i
    rw [VigenereBreaker.encryptFrom, List.length_cons, List.length_cons, ih]

theorem decryptFrom_length (key : Text) :
    ∀ (t : Text) (i : ℕ), (VigenereBreaker.decryptFrom key i t).length = t.length := by
  intro t
  induction t with
  | nil => intro i; rfl
  | cons c cs ih =>
    intro i
    rw [VigenereBreaker.decryptFrom, List.length_cons, List.length_cons, ih]

theorem encryptFrom_getElem (key : Text) :
    ∀ (t : Text) (j i : ℕ) (hi : i < t.length),
      (VigenereBreaker.encryptFrom key j t)[i]? =
        some (if isalpha t[i] then
            VigenereBreaker.vigenereShift t[i]
              ((VigenereBreaker.charToShift (touppc (key[(j + i) % key.length]!)) : ℤ))
          else t[i]) := by
  intro t
  induction t with
  | nil => intro j i hi; exact absurd hi (by simp)
  | cons c cs ih =>
    intro j i hi
    rw [VigenereBreaker.encryptFrom]
    cases i with
    | zero => simp
    | succ k =>
      have hk : k < cs.length := by simpa using hi
      have := ih (j + 1) k hk
      simpa [Nat.add_assoc, Nat.add_comm 1 k] using this

theorem decryptFrom_getElem (key : Text) :
    ∀ (t : Text) (j i : ℕ) (hi : i < t.length),
      (VigenereBreaker.decryptFrom key j t)[i]? =
        some (if isalpha t[i] then
            VigenereBreaker.vigenereShift t[i]
              ((26:ℤ) - (VigenereBreaker.charToShift (touppc (key[(j + i) % key.length]!)) : ℤ))
          else t[i]) := by
  intro t
  induction t with
  | nil => intro j i hi; exact absurd hi (by simp)
  | cons c cs ih =>
    intro j i hi
    rw [VigenereBreaker.decryptFrom]
    cases i with
    | zero => simp
    | succ k =>
      have hk : k < cs.length := by simpa using hi
      have := ih (j + 1) k hk
      simpa [Nat.add_assoc, Nat.add_comm 1 k] using this

/-- C10: `VigenereBreaker::encrypt`/`decrypt` pick the key character by the
character's absolute position in the input string — position `i` uses key
character `i mod |key|`, counted over all characters, so non-alphabetic
characters consume key positions while being copied unchanged (and the
output always has the input's length). -/
theorem c10_vigenere_absolute_position (t key : Text) (hk : key ≠ []) :
    (VigenereBreaker.encrypt t key).length = t.length
      ∧ (VigenereBreaker.decrypt t key).length = t.length
      ∧ ∀ (i : ℕ) (hi : i < t.length),
        (VigenereBreaker.encrypt t key)[i]? =
          some (if isalpha t[i] then
              VigenereBreaker.vigenereShift t[i]
                ((VigenereBreaker.charToShift (touppc (key[i % key.length]!)) : ℤ))
            else t[i])
          ∧ (VigenereBreaker.decrypt t key)[i]? =
            some (if isalpha t[i] then
                VigenereBreaker.vigenereShift t[i]
                  ((26:ℤ) - (VigenereBreaker.charToShift (touppc (key[i % key.length]!)) : ℤ))
              else t[i]) := by
  have hke : key.isEmpty = false := by
    cases key with
    | nil => exact absurd rfl hk
    | cons a l => rfl
  rw [VigenereBreaker.encrypt, VigenereBreaker.decrypt, if_neg (by simp [hke]),
    if_neg (by simp [hke])]
  refine ⟨encryptFrom_length key t 0, decryptFrom_length key t 0, ?_⟩
  intro i hi
  have he := encryptFrom_getElem key t 0 i hi
  have hd := decryptFrom_getElem key t 0 i hi
  rw [Nat.zero_add] at he hd
  exact ⟨he, hd⟩

/-- Witness for C10 on a concrete text with a non-alphabetic character. -/
theorem c10_vigenere_absolute_position_witness :
    (VigenereBreaker.encrypt "AB CD".toList "KEY".toList)[3]? =
        some (if isalpha ("AB CD".toList)[3] then
            VigenereBreaker.vigenereShift ("AB CD".toList)[3]
              ((VigenereBreaker.charToShift
                (touppc ("KEY".toList[3 % "KEY".toList.length]!)) : ℤ))
          else ("AB CD".toList)[3]) :=
  ((c10_vigenere_absolute_position "AB CD".toList "KEY".toList (by decide)).2.2 3
    (by decide)).1

instance : IsTrans (ℕ × Frac) FrequencyAnalyzer.scoreDescLe :=
  ⟨fun a b c hab hbc => by
    rw [FrequencyAnalyzer.scoreDescLe] at hab hbc ⊢
    rw [Frac.toRat_le] at hab hbc ⊢
    exact le_trans hbc hab⟩

instance : IsTotal (ℕ × Frac) FrequencyAnalyzer.scoreDescLe :=
  ⟨fun a b => by
    rw [FrequencyAnalyzer.scoreDescLe, FrequencyAnalyzer.scoreDescLe,
      Frac.toRat_le, Frac.toRat_le]
    exact (le_total _ _).symm⟩

/-- C7: after ranking the 26 Caesar candidates, when at least two candidates
exist the updated confidence is `clamp((best − secondBest) · 10 + 50, 0, 100)`
for the two top-ranked scores, and with fewer than two candidates the
confidence keeps its prior value.  (The code computes `min(100, ·)`; the
lower clamp never binds because the ranking puts the larger score first.) -/
theorem c7_caesar_confidence (t : Text) (conf : Frac) :
    (2 ≤ (CaesarBreaker.findPossibleKeysPair t conf).1.length →
        ((CaesarBreaker.findPossibleKeysPair t conf).2).toRat =
          max (0:ℚ) (min ((((CaesarBreaker.findPossibleKeysPair t conf).1[0]!).2.toRat
              - ((CaesarBreaker.findPossibleKeysPair t conf).1[1]!).2.toRat) * 10 + 50) 100))
      ∧ ((CaesarBreaker.findPossibleKeysPair t conf).1.length < 2 →
        (CaesarBreaker.findPossibleKeysPair t conf).2 = conf) := by
  rw [CaesarBreaker.findPossibleKeysPair]
  set base : List (ℕ × Frac) := (List.range 26).map
    (fun k => (k, CaesarBreaker.scoreText (CaesarBreaker.caesarShift (Utils.normalizeText t) (k : ℤ)))) with hbase
  set sorted := base.insertionSort FrequencyAnalyzer.scoreDescLe with hsorted
  have hsort : List.Sorted FrequencyAnalyzer.scoreDescLe sorted :=
    List.sorted_insertionSort _ base
  constructor
  · intro h2
    simp only at h2
    rw [if_pos h2]
    cases hs : sorted with
    | nil => rw [hs] at h2; exact absurd h2 (by simp)
    | cons a tl =>
      cases ht : tl with
      | nil =>
        rw [hs, ht] at h2
        exact absurd h2 (by simp)
      | cons b rest =>
        rw [hs, ht] at hsort
        have hab : FrequencyAnalyzer.scoreDescLe a b :=
          (List.pairwise_cons.mp hsort).1 b (by simp)
        rw [FrequencyAnalyzer.scoreDescLe, Frac.toRat_le] at hab
        have hx : (0:ℚ) ≤ (a.2.toRat - b.2.toRat) * 10 + 50 := by
          have hd : (0:ℚ) ≤ a.2.toRat - b.2.toRat := by linarith
          linarith
        dsimp only
        simp only [List.getElem!_cons_zero, List.getElem!_cons_succ]
        have hval : ((Frac.ofInt 100).fmin ((a.2 - b.2) * Frac.ofInt 10 + Frac.ofInt 50)).toRat
            = min (100:ℚ) ((a.2.toRat - b.2.toRat) * 10 + 50) := by
          rw [Frac.toRat_fmin, Frac.toRat_add, Frac.toRat_mul, Frac.toRat_sub,
            Frac.toRat_ofInt, Frac.toRat_ofInt, Frac.toRat_ofInt]
          norm_num
        rw [hval, max_eq_right (le_min hx (by norm_num)), min_comm]
  · intro hlt
    simp only at hlt
    rw [if_neg (by omega)]

/-- Witness for C7 at a concrete short input (all 26 scores evaluate to 0,
the formula gives 50). -/
theorem c7_caesar_confidence_witness :
    ((CaesarBreaker.findPossibleKeysPair "ABCDE".toList (Frac.ofInt 7)).2).toRat =
      max (0:ℚ) (min ((((CaesarBreaker.findPossibleKeysPair "ABCDE".toList (Frac.ofInt 7)).1[0]!).2.toRat
          - ((CaesarBreaker.findPossibleKeysPair "ABCDE".toList (Frac.ofInt 7)).1[1]!).2.toRat) * 10 + 50) 100) :=
  (c7_caesar_confidence "ABCDE".toList (Frac.ofInt 7)).1 (by decide)

theorem mem_upperAlphabet_iff (c : Char) :
    c ∈ upperAlphabet ↔ 65 ≤ c.toNat ∧ c.toNat ≤ 90 := by
  constructor
  · intro h
    have hall : ∀ x ∈ upperAlphabet, 65 ≤ x.toNat ∧ x.toNat ≤ 90 := by decide
    exact hall c h
  · rintro ⟨h1, h2⟩
    have hc : c = Char.ofNat c.toNat := (Char.ofNat_toNat c).symm
    rw [hc]
    revert h1 h2
    generalize c.toNat = n
    intro h1 h2
    interval_cases n <;> decide

theorem sum_indicator_one {A : List Char} (hA : A.Nodup) {x : Char} (hx : x ∈ A) :
    (A.map (fun c => if x = c then 1 else 0)).sum = 1 := by
  induction A with
  | nil => exact absurd hx (by simp)
  | cons a A ih =>
    rcases List.mem_cons.mp hx with h | h
    · subst h
      have hnot : x ∉ A := (List.nodup_cons.mp hA).1
      have hz : (A.map (fun c => if x = c then 1 else 0)).sum = 0 := by
        rw [List.sum_eq_zero]
        intro n hn
        rcases List.mem_map.mp hn with ⟨c, hc, hv⟩
        have hne : ¬ x = c := fun hb => hnot (hb ▸ hc)
        rw [← hv, if_neg hne]
      simp [hz]
    · have hne : ¬ x = a := by
        intro hb
        subst hb
        exact (List.nodup_cons.mp hA).1 h
      rw [List.map_cons, List.sum_cons, if_neg hne,
        ih (List.nodup_cons.mp hA).2 h]

theorem sum_counts {A : List Char} (hA : A.Nodup) :
    ∀ (L : List Char), (∀ x ∈ L, x ∈ A) → (A.map (fun c => L.count c)).sum = L.length := by
  intro L
  induction L with
  | nil => intro _; simp
  | cons x L ih =>
    intro hmem
    have hx : x ∈ A := hmem x (by simp)
    have hL : ∀ y ∈ L, y ∈ A := fun y hy => hmem y (by simp [hy])
    have hcount : ∀ c, (x :: L).count c = L.count c + if x = c then 1 else 0 := by
      intro c
      rw [List.count_cons]
      simp [beq_iff_eq]
    calc (A.map (fun c => (x :: L).count c)).sum
        = (A.map (fun c => L.count c + if x = c then 1 else 0)).sum := by
          exact congrArg List.sum (List.map_congr_left (fun c _ => hcount c))
      _ = (A.map (fun c => L.count c)).sum
            + (A.map (fun c => if x = c then 1 else 0)).sum := by
          rw [← List.sum_map_add]
      _ = L.length + 1 := by rw [ih hL, sum_indicator_one hA hx]
      _ = (x :: L).length := by simp

theorem upperAlphabet_nodup : upperAlphabet.Nodup := by decide

/-- The letter counts of the 26 upper-case letters exhaust the alphabetic
characters of the text. -/
theorem sum_letterCount (t : Text) :
    (upperAlphabet.map (fun c => FrequencyAnalyzer.letterCount t c)).sum
      = FrequencyAnalyzer.totalAlphaChars t := by
  rw [FrequencyAnalyzer.totalAlphaChars]
  have hlen : (t.filter isalpha).length = ((t.filter isalpha).map touppc).length := by
    rw [List.length_map]
  rw [hlen]
  apply sum_counts upperAlphabet_nodup
  intro x hx
  rcases List.mem_map.mp hx with ⟨y, hy, hxy⟩
  have hya : isalpha y = true := List.of_mem_filter hy
  have := touppc_bounds_of_alpha hya
  rw [mem_upperAlphabet_iff, ← hxy]
  exact this

/-- C6: `frequency(text)`, read through the miss-as-zero lookup every
consumer uses, covers all 26 letters with value 0 for letters absent from
the text; on text without alphabetic characters every value is 0 (the
all-zero table); and when there is at least one alphabetic character the 26
percentages sum to exactly 100. -/
theorem c6_frequency_invariants (t : Text) :
    (∀ c, FrequencyAnalyzer.letterCount t c = 0 →
        (FrequencyAnalyzer.calculateFrequency t c).toRat = 0)
      ∧ (FrequencyAnalyzer.totalAlphaChars t = 0 →
        ∀ c, (FrequencyAnalyzer.calculateFrequency t c).toRat = 0)
      ∧ (0 < FrequencyAnalyzer.totalAlphaChars t →
        (upperAlphabet.map (fun c => (FrequencyAnalyzer.calculateFrequency t c).toRat)).sum
          = 100) := by
  refine ⟨?_, ?_, ?_⟩
  · intro c hc
    rw [FrequencyAnalyzer.calculateFrequency]
    by_cases h0 : FrequencyAnalyzer.totalAlphaChars t = 0
    · rw [if_pos h0, Frac.toRat_zero]
    · rw [if_neg h0, Frac.toRat_mul, Frac.toRat_div, hc]
      · simp [Frac.toRat_ofInt]
      · rw [Frac.toRat_ofInt]
        exact_mod_cast h0
  · intro h0 c
    rw [FrequencyAnalyzer.calculateFrequency, if_pos h0, Frac.toRat_zero]
  · intro hpos
    have h0 : FrequencyAnalyzer.totalAlphaChars t ≠ 0 := Nat.pos_iff_ne_zero.mp hpos
    have htr : ∀ c, (FrequencyAnalyzer.calculateFrequency t c).toRat
        = (FrequencyAnalyzer.letterCount t c : ℚ)
          / (FrequencyAnalyzer.totalAlphaChars t : ℚ) * 100 := by
      intro c
      rw [FrequencyAnalyzer.calculateFrequency, if_neg h0, Frac.toRat_mul, Frac.toRat_div,
        Frac.toRat_ofInt, Frac.toRat_ofInt, Frac.toRat_ofInt]
      · push_cast
        ring
      · rw [Frac.toRat_ofInt]
        exact_mod_cast h0
    calc (upperAlphabet.map (fun c => (FrequencyAnalyzer.calculateFrequency t c).toRat)).sum
        = (upperAlphabet.map (fun c =>
            (FrequencyAnalyzer.letterCount t c : ℚ)
              * (100 / (FrequencyAnalyzer.totalAlphaChars t : ℚ)))).sum := by
          apply congrArg List.sum
          apply List.map_congr_left
          intro c _
          rw [htr c]
          ring
      _ = (upperAlphabet.map (fun c => (FrequencyAnalyzer.letterCount t c : ℚ))).sum
            * (100 / (FrequencyAnalyzer.totalAlphaChars t : ℚ)) := by
          rw [List.sum_map_mul_right]
      _ = (FrequencyAnalyzer.totalAlphaChars t : ℚ)
            * (100 / (FrequencyAnalyzer.totalAlphaChars t : ℚ)) := by
          congr 1
          have hq := sum_letterCount t
          have : (upperAlphabet.map (fun c => (FrequencyAnalyzer.letterCount t c : ℚ))).sum
              = (((upperAlphabet.map (fun c => FrequencyAnalyzer.letterCount t c)).sum : ℕ) : ℚ) := by
            rw [Nat.cast_list_sum, List.map_map]
            rfl
          rw [this, hq]
      _ = 100 := by
          field_simp
  
/-- Witness for C6 on a concrete text with letters. -/
theorem c6_frequency_invariants_witness :
    (FrequencyAnalyzer.calculateFrequency "AAB".toList 'Z').toRat = 0
      ∧ (upperAlphabet.map
          (fun c => (FrequencyAnalyzer.calculateFrequency "AAB".toList c).toRat)).sum = 100 :=
  ⟨(c6_frequency_invariants "AAB".toList).1 'Z' (by decide),
   (c6_frequency_invariants "AAB".toList).2.2 (by decide)⟩

theorem hillClimbStep_le (t : Text) (st : SubstitutionBreaker.Mapping × Frac) (r : ℕ × ℕ) :
    st.2.toRat ≤ (SubstitutionBreaker.hillClimbStep t st r).2.toRat := by
  rw [SubstitutionBreaker.hillClimbStep]
  by_cases h : st.2 < SubstitutionBreaker.scoreMapping
      (SubstitutionBreaker.generateNeighborMapping st.1 r.1 r.2) t
  · rw [if_pos h]
    exact le_of_lt ((Frac.toRat_lt _ _).mp h)
  · rw [if_neg h]

theorem hillClimbFold_le (t : Text) :
    ∀ (rands : List (ℕ × ℕ)) (st : SubstitutionBreaker.Mapping × Frac),
      st.2.toRat ≤ (rands.foldl (SubstitutionBreaker.hillClimbStep t) st).2.toRat := by
  intro rands
  induction rands with
  | nil => intro st; exact le_refl _
  | cons r rs ih =>
    intro st
    rw [List.foldl_cons]
    exact le_trans (hillClimbStep_le t st r) (ih _)

/-- C9: a hill-climbing iteration either keeps the state unchanged or adopts
the neighbor exactly when its fitness strictly exceeds the current fitness;
consequently the running fitness of `hillClimbOptimization` is
non-decreasing across iterations (extending the run never lowers it). -/
theorem c9_hill_climb_monotone :
    (∀ (t : Text) (st : SubstitutionBreaker.Mapping × Frac) (r : ℕ × ℕ),
        SubstitutionBreaker.hillClimbStep t st r = st
          ∨ (st.2.toRat < (SubstitutionBreaker.scoreMapping
                (SubstitutionBreaker.generateNeighborMapping st.1 r.1 r.2) t).toRat
            ∧ SubstitutionBreaker.hillClimbStep t st r
              = (SubstitutionBreaker.generateNeighborMapping st.1 r.1 r.2,
                 SubstitutionBreaker.scoreMapping
                   (SubstitutionBreaker.generateNeighborMapping st.1 r.1 r.2) t)))
      ∧ (∀ (t : Text) (m0 : SubstitutionBreaker.Mapping) (rands rands2 : List (ℕ × ℕ)),
        ((SubstitutionBreaker.hillClimbOptimization m0 t rands).2).toRat
          ≤ ((SubstitutionBreaker.hillClimbOptimization m0 t (rands ++ rands2)).2).toRat) := by
  constructor
  · intro t st r
    rw [SubstitutionBreaker.hillClimbStep]
    by_cases h : st.2 < SubstitutionBreaker.scoreMapping
        (SubstitutionBreaker.generateNeighborMapping st.1 r.1 r.2) t
    · right
      rw [if_pos h]
      exact ⟨(Frac.toRat_lt _ _).mp h, rfl⟩
    · left
      rw [if_neg h]
  · intro t m0 rands rands2
    rw [SubstitutionBreaker.hillClimbOptimization, SubstitutionBreaker.hillClimbOptimization,
      List.foldl_append]
    exact hillClimbFold_le t rands2 _

theorem Frac.toRat_eq_intCast (a : Frac) (n : ℤ) (h : a.num = n * a.den) : a.toRat = (n : ℚ) := by
  have hd := Frac.den_ne_zero_q a
  rw [Frac.toRat, h]
  push_cast
  field_simp

/-- C5, counterexample: on invalid input the solver returns the empty result
but does **not** reset its confidence to zero — it keeps the prior value.
A preceding valid run of the Caesar breaker leaves confidence 50, and the
following invalid-input call still reports 50. -/
theorem c5_confidence_not_reset_counterexample :
    ((CaesarBreaker.breakCipher (0:Frac) "ABCDE".toList).2).toRat = 50
      ∧ (CaesarBreaker.breakCipher (CaesarBreaker.breakCipher (0:Frac) "ABCDE".toList).2
          "123456".toList).1 = ([] : Text)
      ∧ ((CaesarBreaker.breakCipher (CaesarBreaker.breakCipher (0:Frac) "ABCDE".toList).2
          "123456".toList).2).toRat ≠ 0 := by
  refine ⟨Frac.toRat_eq_intCast _ 50 (by decide), by decide, ?_⟩
  intro h
  have := (Frac.toRat_eq_zero_iff _).mp h
  revert this
  decide

/-- C5 (amended): when the ciphertext is empty or less than half of its
characters are alphabetic, each of the three solvers returns immediately
with an empty result and leaves its confidence unchanged (total functions —
no exception; the confidence is zero only for a fresh solver instance,
since invalid input does not reset it). -/
theorem c5_invalid_input (conf : Frac) (t : Text) (rands : List (ℕ × ℕ))
    (h : t = [] ∨ 2 * (t.filter isalpha).length < t.length) :
    CaesarBreaker.breakCipher conf t = ([], conf)
      ∧ SubstitutionBreaker.breakCipher conf t rands = ([], conf)
      ∧ VigenereBreaker.breakCipher conf t = ([], conf) := by
  have hv : validateInput t = false := by
    rcases h with h | h
    · subst h
      rfl
    · rw [validateInput]
      by_cases he : t.isEmpty
      · rw [if_pos he]
      · rw [if_neg he, Utils.isValidInput, if_neg he, decide_eq_false]
        omega
  refine ⟨?_, ?_, ?_⟩
  · rw [CaesarBreaker.breakCipher, if_pos (by simp [hv])]
  · rw [SubstitutionBreaker.breakCipher, if_pos (by simp [hv])]
  · rw [VigenereBreaker.breakCipher, if_pos (by simp [hv])]

/-- Witness for C5's amended theorem on a digits-only input. -/
theorem c5_invalid_input_witness :
    CaesarBreaker.breakCipher (Frac.ofInt 7) "123456".toList = ([], Frac.ofInt 7)
      ∧ SubstitutionBreaker.breakCipher (Frac.ofInt 7) "123456".toList [] = ([], Frac.ofInt 7)
      ∧ VigenereBreaker.breakCipher (Frac.ofInt 7) "123456".toList = ([], Frac.ofInt 7) :=
  c5_invalid_input (Frac.ofInt 7) "123456".toList [] (by decide)

instance : Zero Frac := ⟨Frac.ofInt 0⟩

theorem Frac.toRat_list_sum (l : List Frac) : (l.sum).toRat = (l.map Frac.toRat).sum := by
  induction l with
  | nil => exact Frac.toRat_zero
  | cons a l ih =>
    rw [List.sum_cons, List.map_cons, List.sum_cons, Frac.toRat_add, ih]

namespace FitnessScorer

/-- Spec §4.2: `unigramFit` is the englishness score. -/
def unigramFit (t : Text) : Frac := FrequencyAnalyzer.scoreEnglishness t

/-- Spec §4.2: `bigramFit` averages, over every bigram window of the
candidate text, the reference frequency of that bigram (0 when absent from
the reference table). -/
def bigramFit (t : Text) : Frac :=
  let ws := FrequencyAnalyzer.bigramWindows (Utils.normalizeText t)
  if ws.isEmpty then (0 : Frac)
  else (ws.map (fun w => (SubstitutionBreaker.bigramFreqTable.lookup w).getD (0 : Frac))).sum
    / Frac.ofInt ws.length

/-- Spec §4.2: `trigramFit`, the trigram analogue. -/
def trigramFit (t : Text) : Frac :=
  let ws := FrequencyAnalyzer.trigramWindows (Utils.normalizeText t)
  if ws.isEmpty then (0 : Frac)
  else (ws.map (fun w => (SubstitutionBreaker.trigramFreqTable.lookup w).getD (0 : Frac))).sum
    / Frac.ofInt ws.length

/-- Spec §4.2: `wordFit` — the fraction of whitespace-delimited tokens with
at least 3 letters (in their normalized, letters-only form, the statistics
convention of the spec) found in the reference common-word set. -/
def wordFit (t : Text) : Frac :=
  let eligible := (Utils.splitTokens t).filter (fun w => 3 ≤ (Utils.normalizeText w).length)
  if eligible.isEmpty then (0 : Frac)
  else Frac.ofInt (eligible.countP
      (fun w => SubstitutionBreaker.commonWordsList.contains (Utils.normalizeText w)))
    / Frac.ofInt eligible.length

/-- Spec §4.2: `fitness = 0.3·unigramFit + 0.3·bigramFit + 0.2·trigramFit
+ 0.2·wordFit`. -/
def specFitness (t : Text) : Frac :=
  Frac.ofPair 3 10 * unigramFit t + Frac.ofPair 3 10 * bigramFit t
    + Frac.ofPair 2 10 * trigramFit t + Frac.ofPair 2 10 * wordFit t

end FitnessScorer

theorem foldl_lookup_toRat {α : Type} [BEq α] (tbl : List (α × Frac)) (ws : List α) :
    ∀ acc : Frac,
      (ws.foldl (fun acc w => match tbl.lookup w with
        | some v => acc + v
        | none => acc) acc).toRat
      = acc.toRat + ((ws.map (fun w => (tbl.lookup w).getD (0 : Frac))).map Frac.toRat).sum := by
  induction ws with
  | nil => intro acc; simp
  | cons w ws ih =>
    intro acc
    rw [List.foldl_cons, List.map_cons, List.map_cons, List.sum_cons]
    cases h : tbl.lookup w with
    | none =>
      rw [ih]
      simp [Frac.toRat_zero]
    | some v =>
      rw [ih, Frac.toRat_add]
      show _ = acc.toRat + (v.toRat + _)
      ring

theorem bigramScore_eq_bigramFit (t : Text) :
    (SubstitutionBreaker.calculateBigramScore t).toRat = (FitnessScorer.bigramFit t).toRat := by
  rw [SubstitutionBreaker.calculateBigramScore, FitnessScorer.bigramFit]
  set ws := FrequencyAnalyzer.bigramWindows (Utils.normalizeText t) with hws
  by_cases h : ws.isEmpty
  · have h0 : ws.length = 0 := by
      rw [List.isEmpty_iff.mp h]
      rfl
    rw [if_pos h, if_neg (by omega), Frac.toRat_zero]
  · have h0 : 0 < ws.length :=
      List.length_pos.mpr (fun heq => h (List.isEmpty_iff.mpr heq))
    rw [if_neg h, if_pos h0, Frac.toRat_div, Frac.toRat_div]
    · congr 1
      have := foldl_lookup_toRat SubstitutionBreaker.bigramFreqTable ws (0 : Frac)
      rw [this, Frac.toRat_zero, Frac.toRat_list_sum]
      ring
    · rw [Frac.toRat_ofInt]
      exact_mod_cast Nat.pos_iff_ne_zero.mp h0
    · rw [Frac.toRat_ofInt]
      exact_mod_cast Nat.pos_iff_ne_zero.mp h0

theorem trigramScore_eq_trigramFit (t : Text) :
    (SubstitutionBreaker.calculateTrigramScore t).toRat = (FitnessScorer.trigramFit t).toRat := by
  rw [SubstitutionBreaker.calculateTrigramScore, FitnessScorer.trigramFit]
  set ws := FrequencyAnalyzer.trigramWindows (Utils.normalizeText t) with hws
  by_cases h : ws.isEmpty
  · have h0 : ws.length = 0 := by
      rw [List.isEmpty_iff.mp h]
      rfl
    rw [if_pos h, if_neg (by omega), Frac.toRat_zero]
  · have h0 : 0 < ws.length :=
      List.length_pos.mpr (fun heq => h (List.isEmpty_iff.mpr heq))
    rw [if_neg h, if_pos h0, Frac.toRat_div, Frac.toRat_div]
    · congr 1
      have := foldl_lookup_toRat SubstitutionBreaker.trigramFreqTable ws (0 : Frac)
      rw [this, Frac.toRat_zero, Frac.toRat_list_sum]
      ring
    · rw [Frac.toRat_ofInt]
      exact_mod_cast Nat.pos_iff_ne_zero.mp h0
    · rw [Frac.toRat_ofInt]
      exact_mod_cast Nat.pos_iff_ne_zero.mp h0

theorem wordScore_eq_wordFit (t : Text) :
    (SubstitutionBreaker.calculateWordScore t).toRat = (FitnessScorer.wordFit t).toRat := by
  rw [SubstitutionBreaker.calculateWordScore, FitnessScorer.wordFit]
  set eligible := (Utils.splitTokens t).filter
    (fun w => 3 ≤ (Utils.normalizeText w).length) with helig
  by_cases h : eligible.isEmpty
  · have h0 : eligible.length = 0 := by
      rw [List.isEmpty_iff.mp h]
      rfl
    rw [if_pos h, if_neg (by omega), Frac.toRat_zero]
  · have h0 : 0 < eligible.length :=
      List.length_pos.mpr (fun heq => h (List.isEmpty_iff.mpr heq))
    rw [if_neg h, if_pos h0]

/-- C2, counterexample: neither `CaesarBreaker` nor `VigenereBreaker` scores
candidates with the four-component 0.3/0.3/0.2/0.2 fitness of the spec: at
the text `"THE THE THE"` both differ from it. -/
theorem c2_fitness_shared_counterexample :
    (CaesarBreaker.scoreText "THE THE THE".toList).toRat
        ≠ (FitnessScorer.specFitness "THE THE THE".toList).toRat
      ∧ (VigenereBreaker.scorePlaintext "THE THE THE".toList).toRat
        ≠ (FitnessScorer.specFitness "THE THE THE".toList).toRat := by
  constructor
  · intro h
    have := (Frac.toRat_eq _ _).mp h
    revert this
    decide
  · intro h
    have := (Frac.toRat_eq _ _).mp h
    revert this
    decide

/-- C2 (amended): only `SubstitutionBreaker` computes candidate fitness as
`0.3·unigramFit + 0.3·bigramFit + 0.2·trigramFit + 0.2·wordFit` (with the
four sub-scores of the spec); `VigenereBreaker::scorePlaintext` is the
englishness score alone, and `CaesarBreaker::scoreText` combines
`0.5·clamp(1/(1+χ²)) + 0.3·icScore + 0.2·patternScore` instead. -/
theorem c2_substitution_fitness_refines_spec (t : Text) :
    (SubstitutionBreaker.scorePlaintext t).toRat = (FitnessScorer.specFitness t).toRat
      ∧ (VigenereBreaker.scorePlaintext t).toRat
        = (FrequencyAnalyzer.scoreEnglishness t).toRat := by
  constructor
  · rw [SubstitutionBreaker.scorePlaintext, SubstitutionBreaker.calculateCombinedScore,
      FitnessScorer.specFitness]
    rw [Frac.toRat_add, Frac.toRat_add, Frac.toRat_add, Frac.toRat_add, Frac.toRat_add,
      Frac.toRat_add, Frac.toRat_mul, Frac.toRat_mul, Frac.toRat_mul, Frac.toRat_mul,
      Frac.toRat_mul, Frac.toRat_mul, Frac.toRat_mul, Frac.toRat_mul]
    rw [bigramScore_eq_bigramFit, trigramScore_eq_trigramFit, wordScore_eq_wordFit]
    rw [FitnessScorer.unigramFit]
    ring
  · rfl

/-! ### Association-list toolkit for substitution mappings -/

theorem lookup_eq_none_iff {m : SubstitutionBreaker.Mapping} {k : Char} :
    m.lookup k = none ↔ k ∉ m.map Prod.fst := by
  induction m with
  | nil => simp
  | cons p m ih =>
    obtain ⟨a, b⟩ := p
    by_cases hk : k = a
    · subst hk
      simp [List.lookup_cons]
    · simp only [List.lookup_cons, beq_iff_eq, if_neg hk, List.map_cons, List.mem_cons]
      rw [show (k == a) = false from beq_eq_false_iff_ne.mpr hk]
      simpa [hk] using ih

theorem lookup_mem {m : SubstitutionBreaker.Mapping} {k v : Char}
    (h : m.lookup k = some v) : (k, v) ∈ m := by
  induction m with
  | nil => simp at h
  | cons p m ih =>
    obtain ⟨a, b⟩ := p
    by_cases hk : k = a
    · subst hk
      rw [List.lookup_cons] at h
      simp only [beq_self_eq_true] at h
      cases h
      exact List.mem_cons_self _ _
    · rw [List.lookup_cons] at h
      rw [show (k == a) = false from beq_eq_false_iff_ne.mpr hk] at h
      exact List.mem_cons_of_mem _ (ih h)

theorem entry_eq_of_nodup_keys {m : SubstitutionBreaker.Mapping}
    (hnd : (m.map Prod.fst).Nodup) {p q : Char × Char}
    (hp : p ∈ m) (hq : q ∈ m) (hk : p.1 = q.1) : p = q := by
  induction m with
  | nil => simp at hp
  | cons a m ih =>
    rw [List.map_cons, List.nodup_cons] at hnd
    rcases List.mem_cons.mp hp with hp1 | hp1 <;> rcases List.mem_cons.mp hq with hq1 | hq1
    · rw [hp1, hq1]
    · exfalso
      apply hnd.1
      rw [← hp1, hk]
      exact List.mem_map_of_mem Prod.fst hq1
    · exfalso
      apply hnd.1
      rw [← hq1, ← hk]
      exact List.mem_map_of_mem Prod.fst hp1
    · exact ih hnd.2 hp1 hq1

theorem entry_eq_of_nodup_values {m : SubstitutionBreaker.Mapping}
    (hnd : (m.map Prod.snd).Nodup) {p q : Char × Char}
    (hp : p ∈ m) (hq : q ∈ m) (hk : p.2 = q.2) : p = q := by
  induction m with
  | nil => simp at hp
  | cons a m ih =>
    rw [List.map_cons, List.nodup_cons] at hnd
    rcases List.mem_cons.mp hp with hp1 | hp1 <;> rcases List.mem_cons.mp hq with hq1 | hq1
    · rw [hp1, hq1]
    · exfalso
      apply hnd.1
      rw [← hp1, hk]
      exact List.mem_map_of_mem Prod.snd hq1
    · exfalso
      apply hnd.1
      rw [← hq1, ← hk]
      exact List.mem_map_of_mem Prod.snd hp1
    · exact ih hnd.2 hp1 hq1

theorem lookup_isSome_of_mem_keys {m : SubstitutionBreaker.Mapping} {k : Char}
    (h : k ∈ m.map Prod.fst) : (m.lookup k).isSome := by
  cases hl : m.lookup k with
  | none => exact absurd h (lookup_eq_none_iff.mp hl)
  | some v => rfl

/-- `keyLe` is total and transitive (for sortedness of the key order). -/
instance : IsTrans (Char × Char) SubstitutionBreaker.keyLe :=
  ⟨fun _ _ _ hab hbc => le_trans hab hbc⟩

instance : IsTotal (Char × Char) SubstitutionBreaker.keyLe :=
  ⟨fun a b => le_total a.1.toNat b.1.toNat⟩

/-- `(l₁.zip l₂).map Prod.snd` is the prefix of `l₂` of `l₁`'s length. -/
theorem map_snd_zip_take {α β : Type} :
    ∀ (l1 : List α) (l2 : List β), l1.length ≤ l2.length →
      ((l1.zip l2).map Prod.snd) = l2.take l1.length := by
  intro l1
  induction l1 with
  | nil => intro l2 h; simp
  | cons a l1 ih =>
    intro l2 h
    cases l2 with
    | nil => simp at h
    | cons b l2 =>
      simp only [List.zip_cons_cons, List.map_cons, List.length_cons, List.take_succ_cons]
      rw [ih l2 (by simpa using h)]

/-- `completeMapping` of a partial injective mapping inside the alphabet
yields a full permutation of the 26 letters. -/
theorem completeMapping_isFullPermutation (m : SubstitutionBreaker.Mapping)
    (hk : (m.map Prod.fst).Nodup) (hv : (m.map Prod.snd).Nodup)
    (hks : ∀ c ∈ m.map Prod.fst, c ∈ upperAlphabet)
    (hvs : ∀ c ∈ m.map Prod.snd, c ∈ upperAlphabet) :
    SubstitutionBreaker.isFullPermutation (SubstitutionBreaker.completeMapping m) := by
  rw [SubstitutionBreaker.completeMapping]
  set K := m.map Prod.fst with hK
  set V := m.map Prod.snd with hV
  set uc := upperAlphabet.filter (fun c => (m.lookup c).isNone) with huc
  set up := upperAlphabet.filter (fun c => ¬ V.contains c) with hup
  -- the present-key letters of the alphabet are a permutation of the keys
  have hpresent : (upperAlphabet.filter (fun c => !(m.lookup c).isNone)).Perm K := by
    rw [List.perm_ext_iff_of_nodup (upperAlphabet_nodup.filter _) hk]
    intro a
    constructor
    · intro ha
      have hmem := List.of_mem_filter ha
      rw [Bool.not_eq_eq_eq_not, Bool.not_true, Option.isNone_eq_false_iff,
        Option.isSome_iff_ne_none] at hmem
      by_contra hna
      exact hmem (lookup_eq_none_iff.mpr hna)
    · intro ha
      apply List.mem_filter.mpr
      refine ⟨hks a ha, ?_⟩
      rw [Bool.not_eq_eq_eq_not, Bool.not_true, Option.isNone_eq_false_iff,
        Option.isSome_iff_ne_none]
      intro hnone
      exact lookup_eq_none_iff.mp hnone ha
  have hucK : (uc ++ K).Perm upperAlphabet := by
    have step1 : (uc ++ K).Perm
        (uc ++ upperAlphabet.filter (fun c => !(m.lookup c).isNone)) :=
      List.Perm.append_left uc hpresent.symm
    have step2 : (uc ++ upperAlphabet.filter
        (fun c => !(m.lookup c).isNone)).Perm upperAlphabet :=
      List.filter_append_perm _ upperAlphabet
    exact step1.trans step2
  -- the used-value letters of the alphabet are a permutation of the values
  have hused : (upperAlphabet.filter (fun c => !(!V.contains c))).Perm V := by
    rw [List.perm_ext_iff_of_nodup (upperAlphabet_nodup.filter _) hv]
    intro a
    constructor
    · intro ha
      have hmem := List.of_mem_filter ha
      rw [Bool.not_not] at hmem
      exact List.elem_iff.mp hmem
    · intro ha
      apply List.mem_filter.mpr
      refine ⟨hvs a ha, ?_⟩
      rw [Bool.not_not]
      exact List.elem_iff.mpr ha
  have hupV : (up ++ V).Perm upperAlphabet := by
    have hpred : up = upperAlphabet.filter (fun c => !V.contains c) := by
      rw [hup]
      apply List.filter_congr
      intro c _
      simp
    have step1 : (up ++ V).Perm
        (up ++ upperAlphabet.filter (fun c => !(!V.contains c))) :=
      List.Perm.append_left up hused.symm
    have step2 : (up ++ upperAlphabet.filter
        (fun c => !(!V.contains c))).Perm upperAlphabet := by
      rw [hpred]
      exact List.filter_append_perm _ upperAlphabet
    exact step1.trans step2
  -- equal lengths of the two leftover lists
  have hKV : K.length = V.length := by
    rw [hK, hV, List.length_map, List.length_map]
  have hlen : uc.length = up.length := by
    have h1 := hucK.length_eq
    have h2 := hupV.length_eq
    rw [List.length_append] at h1 h2
    omega
  -- the zip of the leftovers projects back onto them
  have hzf : (uc.zip up).map Prod.fst = uc :=
    List.map_fst_zip uc up (le_of_eq hlen)
  have hzs : (uc.zip up).map Prod.snd = up :=
    List.map_snd_zip uc up (le_of_eq hlen.symm)
  have hperm : ((m ++ uc.zip up).insertionSort SubstitutionBreaker.keyLe).Perm (m ++ uc.zip up) :=
    List.perm_insertionSort _ _
  constructor
  · have step1 : (((m ++ uc.zip up).insertionSort SubstitutionBreaker.keyLe).map
        Prod.fst).Perm (K ++ uc) := by
      have := hperm.map Prod.fst
      rw [List.map_append, hzf, ← hK] at this
      exact this
    exact step1.trans (List.perm_append_comm.trans hucK)
  · have step1 : (((m ++ uc.zip up).insertionSort SubstitutionBreaker.keyLe).map
        Prod.snd).Perm (V ++ up) := by
      have := hperm.map Prod.snd
      rw [List.map_append, hzs, ← hV] at this
      exact this
    exact step1.trans (List.perm_append_comm.trans hupV)

/-- The seed mapping built by `generateMapping` is always a full
permutation: frequency-ranked distinct letters are paired injectively and
the completion fills the rest. -/
theorem generateMapping_isFullPermutation (t : Text) :
    SubstitutionBreaker.isFullPermutation (SubstitutionBreaker.generateMapping t) := by
  rw [SubstitutionBreaker.generateMapping]
  set n := Utils.normalizeText t with hn
  set present := upperAlphabet.filter
    (fun c => 0 < FrequencyAnalyzer.letterCount n c) with hpresent
  set cp : List (Char × Frac) := present.map
    (fun c => (c, FrequencyAnalyzer.calculateFrequency n c)) with hcp
  set cipherSorted := cp.insertionSort FrequencyAnalyzer.scoreDescLe with hcs
  set englishSorted :=
    FrequencyAnalyzer.englishFrequencies.insertionSort FrequencyAnalyzer.scoreDescLe with hes
  have hcpfst : cp.map Prod.fst = present := by
    rw [hcp, List.map_map]
    have hco : (Prod.fst ∘ fun c => (c, FrequencyAnalyzer.calculateFrequency n c)) = id := rfl
    rw [hco, List.map_id]
  have hK1perm : (cipherSorted.map Prod.fst).Perm present := by
    have := (List.perm_insertionSort FrequencyAnalyzer.scoreDescLe cp).map Prod.fst
    rw [hcpfst] at this
    exact this
  have hK1nodup : (cipherSorted.map Prod.fst).Nodup :=
    ((upperAlphabet_nodup.filter _).perm hK1perm.symm)
  have hK2eq : FrequencyAnalyzer.englishFrequencies.map Prod.fst = upperAlphabet := by decide
  have hK2perm : (englishSorted.map Prod.fst).Perm upperAlphabet := by
    have := (List.perm_insertionSort FrequencyAnalyzer.scoreDescLe
      FrequencyAnalyzer.englishFrequencies).map Prod.fst
    rw [hK2eq] at this
    exact this
  have hK2nodup : (englishSorted.map Prod.fst).Nodup :=
    upperAlphabet_nodup.perm hK2perm.symm
  have hlen : (cipherSorted.map Prod.fst).length ≤ (englishSorted.map Prod.fst).length := by
    rw [hK1perm.length_eq, hK2perm.length_eq]
    exact List.length_filter_le _ _
  have hseedk : ((cipherSorted.map Prod.fst).zip (englishSorted.map Prod.fst)).map Prod.fst
      = cipherSorted.map Prod.fst := List.map_fst_zip _ _ hlen
  have hseedv : ((cipherSorted.map Prod.fst).zip (englishSorted.map Prod.fst)).map Prod.snd
      = (englishSorted.map Prod.fst).take (cipherSorted.map Prod.fst).length :=
    map_snd_zip_take _ _ hlen
  apply completeMapping_isFullPermutation
  · rw [hseedk]
    exact hK1nodup
  · rw [hseedv]
    exact hK2nodup.sublist (List.take_sublist _ _)
  · intro c hc
    rw [hseedk] at hc
    exact List.mem_filter.mp (hK1perm.mem_iff.mp hc) |>.1
  · intro c hc
    rw [hseedv] at hc
    exact hK2perm.mem_iff.mp ((List.take_sublist _ _).mem hc)

/-- Swapping the images of two mapped cipher letters permutes the value
list. -/
theorem map_values_swap_perm (m : SubstitutionBreaker.Mapping) (c1 c2 v1 v2 : Char)
    (h1 : (c1, v1) ∈ m) (h2 : (c2, v2) ∈ m)
    (hk : (m.map Prod.fst).Nodup) (hv : (m.map Prod.snd).Nodup) :
    ((m.map (fun p => if p.1 = c2 then v1 else if p.1 = c1 then v2 else p.2))).Perm
      (m.map Prod.snd) := by
  have hmn : m.Nodup := List.Nodup.of_map _ hk
  have hkey1 : ∀ q ∈ m, q.1 = c1 → q = (c1, v1) := fun q hq hq1 =>
    entry_eq_of_nodup_keys hk hq h1 hq1
  have hkey2 : ∀ q ∈ m, q.1 = c2 → q = (c2, v2) := fun q hq hq1 =>
    entry_eq_of_nodup_keys hk hq h2 hq1
  have hval1 : ∀ q ∈ m, q.2 = v1 → q = (c1, v1) := fun q hq hq1 =>
    entry_eq_of_nodup_values hv hq h1 hq1
  have hval2 : ∀ q ∈ m, q.2 = v2 → q = (c2, v2) := fun q hq hq1 =>
    entry_eq_of_nodup_values hv hq h2 hq1
  have hnodup2 :
      ((m.map (fun p => if p.1 = c2 then v1 else if p.1 = c1 then v2 else p.2))).Nodup := by
    apply List.Nodup.map_on _ hmn
    intro p hp q hq heq
    by_cases hp2 : p.1 = c2
    · by_cases hq2 : q.1 = c2
      · rw [hkey2 p hp hp2, hkey2 q hq hq2]
      · rw [if_pos hp2, if_neg hq2] at heq
        by_cases hq1 : q.1 = c1
        · rw [if_pos hq1] at heq
          have hc12 : (c1, v1) = (c2, v2) := entry_eq_of_nodup_values hv h1 h2 heq
          have hcc : c1 = c2 := congrArg Prod.fst hc12
          rw [hcc] at hq1
          exact absurd hq1 hq2
        · rw [if_neg hq1] at heq
          have hq' := hval1 q hq heq.symm
          exact absurd (congrArg Prod.fst hq') hq1
    · by_cases hq2 : q.1 = c2
      · rw [if_neg hp2, if_pos hq2] at heq
        by_cases hp1 : p.1 = c1
        · rw [if_pos hp1] at heq
          have hc12 : (c1, v1) = (c2, v2) := entry_eq_of_nodup_values hv h1 h2 heq.symm
          have hcc : c1 = c2 := congrArg Prod.fst hc12
          rw [hcc] at hp1
          exact absurd hp1 hp2
        · rw [if_neg hp1] at heq
          have hp' := hval1 p hp heq
          exact absurd (congrArg Prod.fst hp') hp1
      · rw [if_neg hp2, if_neg hq2] at heq
        by_cases hp1 : p.1 = c1
        · by_cases hq1 : q.1 = c1
          · rw [hkey1 p hp hp1, hkey1 q hq hq1]
          · rw [if_pos hp1, if_neg hq1] at heq
            have hq' := hval2 q hq heq.symm
            exact absurd (congrArg Prod.fst hq') hq2
        · by_cases hq1 : q.1 = c1
          · rw [if_neg hp1, if_pos hq1] at heq
            have hp' := hval2 p hp heq
            exact absurd (congrArg Prod.fst hp') hp2
          · rw [if_neg hp1, if_neg hq1] at heq
            exact entry_eq_of_nodup_values hv hp hq heq
  rw [List.perm_ext_iff_of_nodup hnodup2 hv]
  intro x
  constructor
  · intro hx
    rcases List.mem_map.mp hx with ⟨p, hp, hpx⟩
    by_cases hp2 : p.1 = c2
    · rw [if_pos hp2] at hpx
      rw [← hpx]
      exact List.mem_map_of_mem Prod.snd h1
    · by_cases hp1 : p.1 = c1
      · rw [if_neg hp2, if_pos hp1] at hpx
        rw [← hpx]
        exact List.mem_map_of_mem Prod.snd h2
      · rw [if_neg hp2, if_neg hp1] at hpx
        rw [← hpx]
        exact List.mem_map_of_mem Prod.snd hp
  · intro hx
    rcases List.mem_map.mp hx with ⟨q, hq, hqx⟩
    by_cases hq1 : q.1 = c1
    · have hq' := hkey1 q hq hq1
      apply List.mem_map.mpr
      refine ⟨(c2, v2), h2, ?_⟩
      rw [if_pos rfl, ← hqx, hq']
    · by_cases hq2 : q.1 = c2
      · have hq' := hkey2 q hq hq2
        have hcc : ¬ c1 = c2 := by
          intro hcc
          rw [← hcc] at hq2
          exact hq1 hq2
        apply List.mem_map.mpr
        refine ⟨(c1, v1), h1, ?_⟩
        dsimp only
        rw [if_neg hcc, if_pos rfl, ← hqx, hq']
      · apply List.mem_map.mpr
        refine ⟨q, hq, ?_⟩
        rw [if_neg hq2, if_neg hq1, hqx]

theorem map_upd_fst (m : SubstitutionBreaker.Mapping) (k v : Char) :
    ((m.map (fun p => if p.1 = k then (k, v) else p)).map Prod.fst) = m.map Prod.fst := by
  rw [List.map_map]
  apply List.map_congr_left
  intro p _
  by_cases h : p.1 = k
  · simp [h]
  · simp [h]

/-- A neighbor swap of a full permutation is again a full permutation. -/
theorem generateNeighborMapping_isFullPermutation (m : SubstitutionBreaker.Mapping)
    (r1 r2 : ℕ) (h : SubstitutionBreaker.isFullPermutation m) :
    SubstitutionBreaker.isFullPermutation
      (SubstitutionBreaker.generateNeighborMapping m r1 r2) := by
  obtain ⟨hkperm, hvperm⟩ := h
  have hknd : (m.map Prod.fst).Nodup := upperAlphabet_nodup.perm hkperm.symm
  have hvnd : (m.map Prod.snd).Nodup := upperAlphabet_nodup.perm hvperm.symm
  have hlen : (m.map Prod.fst).length = 26 := by
    rw [hkperm.length_eq]
    rfl
  rw [SubstitutionBreaker.generateNeighborMapping]
  simp only
  rw [if_neg (by omega)]
  have hpos : 0 < (m.map Prod.fst).length := by omega
  have hi1 : r1 % (m.map Prod.fst).length < (m.map Prod.fst).length := Nat.mod_lt _ hpos
  have hi2 : r2 % (m.map Prod.fst).length < (m.map Prod.fst).length := Nat.mod_lt _ hpos
  set c1 := (m.map Prod.fst)[r1 % (m.map Prod.fst).length]! with hc1
  set c2 := (m.map Prod.fst)[r2 % (m.map Prod.fst).length]! with hc2
  have hc1mem : c1 ∈ m.map Prod.fst := by
    rw [hc1, getElem!_pos (m.map Prod.fst) (r1 % (m.map Prod.fst).length) hi1]
    exact List.getElem_mem hi1
  have hc2mem : c2 ∈ m.map Prod.fst := by
    rw [hc2, getElem!_pos (m.map Prod.fst) (r2 % (m.map Prod.fst).length) hi2]
    exact List.getElem_mem hi2
  obtain ⟨w1, hw1⟩ := Option.isSome_iff_exists.mp (lookup_isSome_of_mem_keys hc1mem)
  obtain ⟨w2, hw2⟩ := Option.isSome_iff_exists.mp (lookup_isSome_of_mem_keys hc2mem)
  have hv1 : (m.lookup c1).getD c1 = w1 := by rw [hw1]; rfl
  have hv2 : (m.lookup c2).getD c2 = w2 := by rw [hw2]; rfl
  have hm1 : (c1, w1) ∈ m := lookup_mem hw1
  have hm2 : (c2, w2) ∈ m := lookup_mem hw2
  rw [hv1, hv2]
  -- both map-set operations take the key-present branch
  have hs1 : (m.lookup c1).isSome = true := by rw [hw1]; rfl
  rw [show SubstitutionBreaker.mapSet m c1 w2
      = m.map (fun p => if p.1 = c1 then (c1, w2) else p) by
    rw [SubstitutionBreaker.mapSet, if_pos hs1]]
  have hkeys1 : ((m.map (fun p => if p.1 = c1 then (c1, w2) else p)).map Prod.fst)
      = m.map Prod.fst := map_upd_fst m c1 w2
  have hs2 : ((m.map (fun p => if p.1 = c1 then (c1, w2) else p)).lookup c2).isSome = true := by
    have : c2 ∈ (m.map (fun p => if p.1 = c1 then (c1, w2) else p)).map Prod.fst := by
      rw [hkeys1]
      exact hc2mem
    exact lookup_isSome_of_mem_keys this
  rw [show SubstitutionBreaker.mapSet (m.map (fun p => if p.1 = c1 then (c1, w2) else p)) c2 w1
      = (m.map (fun p => if p.1 = c1 then (c1, w2) else p)).map
          (fun p => if p.1 = c2 then (c2, w1) else p) by
    rw [SubstitutionBreaker.mapSet, if_pos hs2]]
  rw [List.map_map]
  constructor
  · -- keys unchanged
    have : (m.map ((fun p => if p.1 = c2 then (c2, w1) else p)
        ∘ (fun p => if p.1 = c1 then (c1, w2) else p))).map Prod.fst = m.map Prod.fst := by
      rw [List.map_map]
      apply List.map_congr_left
      intro p _
      by_cases h1 : p.1 = c1
      · by_cases hcc : c1 = c2 <;> simp [Function.comp, h1, hcc]
      · by_cases h2 : p.1 = c2
        · have hne : ¬ c2 = c1 := fun hcc => h1 (h2.trans hcc)
          simp [Function.comp, h1, h2, hne]
        · simp [Function.comp, h1, h2]
    rw [this]
    exact hkperm
  · -- values are the old values with the two images exchanged
    have hptw : (m.map ((fun p => if p.1 = c2 then (c2, w1) else p)
        ∘ (fun p => if p.1 = c1 then (c1, w2) else p))).map Prod.snd
        = m.map (fun p => if p.1 = c2 then w1 else if p.1 = c1 then w2 else p.2) := by
      rw [List.map_map]
      apply List.map_congr_left
      intro p _
      by_cases h1 : p.1 = c1
      · by_cases hcc : c1 = c2
        · simp [Function.comp, h1, hcc]
        · have hp2 : ¬ p.1 = c2 := by rw [h1]; exact hcc
          simp [Function.comp, h1, hp2, hcc]
      · by_cases h2 : p.1 = c2
        · have hne : ¬ c2 = c1 := fun hcc => h1 (h2.trans hcc)
          simp [Function.comp, h1, h2, hne]
        · simp [Function.comp, h1, h2]
    rw [hptw]
    exact (map_values_swap_perm m c1 c2 w1 w2 hm1 hm2 hknd hvnd).trans hvperm

/-- C4 (amended): the completed seed mapping is always a full permutation of
the 26 letters, and a hill-climbing neighbor swap preserves that invariant;
bigram refinement, however, may break it (see the counterexample), because
it overwrites the images of the two bigram letters without swapping. -/
theorem c4_seed_and_swap_are_permutations :
    (∀ t : Text,
        SubstitutionBreaker.isFullPermutation (SubstitutionBreaker.generateMapping t))
      ∧ (∀ (m : SubstitutionBreaker.Mapping) (r1 r2 : ℕ),
        SubstitutionBreaker.isFullPermutation m →
          SubstitutionBreaker.isFullPermutation
            (SubstitutionBreaker.generateNeighborMapping m r1 r2)) :=
  ⟨generateMapping_isFullPermutation, generateNeighborMapping_isFullPermutation⟩

/-- The identity mapping on the 26 letters (used as a witness input). -/
def identityMapping : SubstitutionBreaker.Mapping :=
  upperAlphabet.map (fun c => (c, c))

/-- Witness for C4's amended theorem: a concrete swap of the identity
mapping is a permutation. -/
theorem c4_seed_and_swap_are_permutations_witness :
    SubstitutionBreaker.isFullPermutation
      (SubstitutionBreaker.generateNeighborMapping identityMapping 3 7) :=
  c4_seed_and_swap_are_permutations.2 identityMapping 3 7 (by decide)

/-- C4, counterexample: on the ciphertext `"CDA CDA DAA CDA CDA A"` the
bigram-refinement step keeps an update that overwrites two images without
swapping, mapping two cipher letters to the same plain letter — the
refined mapping is not a permutation (all frequency and bigram ranks of
this text are strict, so the sort order is determined). -/
theorem c4_bigram_refinement_counterexample :
    ¬ SubstitutionBreaker.isFullPermutation
      (SubstitutionBreaker.improveMappingWithBigrams
        (SubstitutionBreaker.generateMapping "CDA CDA DAA CDA CDA A".toList)
        "CDA CDA DAA CDA CDA A".toList) := by decide

/-! ### Generic association-list lemmas (for the combined-score map) -/

theorem lookupN_eq_none_iff {α β : Type} [BEq α] [LawfulBEq α]
    {m : List (α × β)} {k : α} :
    m.lookup k = none ↔ k ∉ m.map Prod.fst := by
  induction m with
  | nil => simp
  | cons p m ih =>
    obtain ⟨a, b⟩ := p
    by_cases hk : k = a
    · subst hk
      simp [List.lookup_cons]
    · simp only [List.lookup_cons, List.map_cons, List.mem_cons]
      rw [show (k == a) = false from beq_eq_false_iff_ne.mpr hk]
      simpa [hk] using ih

theorem lookupN_mem {α β : Type} [BEq α] [LawfulBEq α]
    {m : List (α × β)} {k : α} {v : β}
    (h : m.lookup k = some v) : (k, v) ∈ m := by
  induction m with
  | nil => simp at h
  | cons p m ih =>
    obtain ⟨a, b⟩ := p
    by_cases hk : k = a
    · subst hk
      rw [List.lookup_cons] at h
      simp only [beq_self_eq_true] at h
      cases h
      exact List.mem_cons_self _ _
    · rw [List.lookup_cons] at h
      rw [show (k == a) = false from beq_eq_false_iff_ne.mpr hk] at h
      exact List.mem_cons_of_mem _ (ih h)

theorem lookupN_of_mem_nodup {α β : Type} [BEq α] [LawfulBEq α]
    {m : List (α × β)} (hnd : (m.map Prod.fst).Nodup) {k : α} {v : β}
    (h : (k, v) ∈ m) : m.lookup k = some v := by
  induction m with
  | nil => simp at h
  | cons p m ih =>
    obtain ⟨a, b⟩ := p
    rw [List.map_cons, List.nodup_cons] at hnd
    rcases List.mem_cons.mp h with h1 | h1
    · cases h1
      rw [List.lookup_cons]
      simp
    · have hk : ¬ k = a := by
        intro hk
        subst hk
        exact hnd.1 (List.mem_map.mpr ⟨(k, v), h1, rfl⟩)
      rw [List.lookup_cons]
      rw [show (k == a) = false from beq_eq_false_iff_ne.mpr hk]
      exact ih hnd.2 h1

theorem addToMap_mem_keys (m : List (ℕ × Frac)) (k : ℕ) (v : Frac) (j : ℕ) :
    j ∈ (VigenereBreaker.addToMap m k v).map Prod.fst
      ↔ j ∈ m.map Prod.fst ∨ j = k := by
  rw [VigenereBreaker.addToMap]
  by_cases h : (m.lookup k).isSome
  · rw [if_pos h]
    have hkeys : ((m.map (fun p => if p.1 = k then (k, p.2 + v) else p)).map Prod.fst)
        = m.map Prod.fst := by
      rw [List.map_map]
      apply List.map_congr_left
      intro p _
      by_cases hp : p.1 = k
      · simp [hp]
      · simp [hp]
    rw [hkeys]
    constructor
    · exact Or.inl
    · rintro (hj | hj)
      · exact hj
      · subst hj
        obtain ⟨w, hw⟩ := Option.isSome_iff_exists.mp h
        exact List.mem_map_of_mem Prod.fst (lookupN_mem hw)
  · rw [if_neg h]
    have hperm := (List.perm_insertionSort (fun a b => a.1 ≤ b.1)
      (m ++ [(k, (0:Frac) + v)])).map Prod.fst
    rw [List.map_append] at hperm
    rw [hperm.mem_iff]
    simp [or_comm]

theorem addToMap_keys_nodup {m : List (ℕ × Frac)} (hnd : (m.map Prod.fst).Nodup)
    (k : ℕ) (v : Frac) :
    ((VigenereBreaker.addToMap m k v).map Prod.fst).Nodup := by
  rw [VigenereBreaker.addToMap]
  by_cases h : (m.lookup k).isSome
  · rw [if_pos h]
    have hkeys : ((m.map (fun p => if p.1 = k then (k, p.2 + v) else p)).map Prod.fst)
        = m.map Prod.fst := by
      rw [List.map_map]
      apply List.map_congr_left
      intro p _
      by_cases hp : p.1 = k
      · simp [hp]
      · simp [hp]
    rw [hkeys]
    exact hnd
  · rw [if_neg h]
    have hknotin : k ∉ m.map Prod.fst := by
      intro hk
      have hnone : m.lookup k = none := Option.not_isSome_iff_eq_none.mp h
      exact lookupN_eq_none_iff.mp hnone hk
    have happ : ((m ++ [(k, (0:Frac) + v)]).map Prod.fst).Nodup := by
      rw [List.map_append]
      apply List.Nodup.append hnd (by simp)
      intro a ha hb
      simp at hb
      subst hb
      exact hknotin ha
    exact happ.perm ((List.perm_insertionSort _ _).map Prod.fst).symm

theorem addToMap_update_keys (m : List (ℕ × Frac)) (k : ℕ) (v : Frac) :
    ((m.map (fun p => if p.1 = k then (k, p.2 + v) else p)).map Prod.fst)
      = m.map Prod.fst := by
  rw [List.map_map]
  apply List.map_congr_left
  intro p _
  by_cases hp : p.1 = k
  · simp [hp]
  · simp [hp]

theorem addToMap_lookup_self {m : List (ℕ × Frac)} (hnd : (m.map Prod.fst).Nodup)
    (k : ℕ) (v : Frac) :
    (VigenereBreaker.addToMap m k v).lookup k
      = some (((m.lookup k).getD 0) + v) := by
  rw [VigenereBreaker.addToMap]
  by_cases h : (m.lookup k).isSome
  · rw [if_pos h]
    obtain ⟨w, hw⟩ := Option.isSome_iff_exists.mp h
    have hmem : (k, w) ∈ m := lookupN_mem hw
    have hmem2 : (k, w + v) ∈ m.map (fun p => if p.1 = k then (k, p.2 + v) else p) :=
      List.mem_map.mpr ⟨(k, w), hmem, by simp⟩
    have hnd2 : ((m.map (fun p => if p.1 = k then (k, p.2 + v) else p)).map Prod.fst).Nodup := by
      rw [addToMap_update_keys]
      exact hnd
    rw [lookupN_of_mem_nodup hnd2 hmem2, hw]
    rfl
  · rw [if_neg h]
    have hnone : m.lookup k = none := Option.not_isSome_iff_eq_none.mp h
    have hknotin : k ∉ m.map Prod.fst := lookupN_eq_none_iff.mp hnone
    have happ : ((m ++ [(k, (0:Frac) + v)]).map Prod.fst).Nodup := by
      rw [List.map_append]
      apply List.Nodup.append hnd (by simp)
      intro a ha hb
      simp at hb
      subst hb
      exact hknotin ha
    have hsnd : (((m ++ [(k, (0:Frac) + v)]).insertionSort
        (fun a b => a.1 ≤ b.1)).map Prod.fst).Nodup :=
      happ.perm ((List.perm_insertionSort _ _).map Prod.fst).symm
    have hmem : (k, (0:Frac) + v) ∈ (m ++ [(k, (0:Frac) + v)]).insertionSort
        (fun a b => a.1 ≤ b.1) :=
      (List.perm_insertionSort _ _).mem_iff.mpr (by simp)
    rw [lookupN_of_mem_nodup hsnd hmem, hnone]
    rfl

theorem addToMap_lookup_other {m : List (ℕ × Frac)} (hnd : (m.map Prod.fst).Nodup)
    {k j : ℕ} (hne : j ≠ k) (v : Frac) :
    (VigenereBreaker.addToMap m k v).lookup j = m.lookup j := by
  rw [VigenereBreaker.addToMap]
  by_cases h : (m.lookup k).isSome
  · rw [if_pos h]
    cases hmj : m.lookup j with
    | none =>
      apply lookupN_eq_none_iff.mpr
      rw [addToMap_update_keys]
      exact lookupN_eq_none_iff.mp hmj
    | some u =>
      have hmem : (j, u) ∈ m := lookupN_mem hmj
      have hmem2 : (j, u) ∈ m.map (fun p => if p.1 = k then (k, p.2 + v) else p) :=
        List.mem_map.mpr ⟨(j, u), hmem, by simp [hne]⟩
      have hnd2 : ((m.map (fun p => if p.1 = k then (k, p.2 + v) else p)).map Prod.fst).Nodup := by
        rw [addToMap_update_keys]
        exact hnd
      exact lookupN_of_mem_nodup hnd2 hmem2
  · rw [if_neg h]
    have hnone : m.lookup k = none := Option.not_isSome_iff_eq_none.mp h
    have hknotin : k ∉ m.map Prod.fst := lookupN_eq_none_iff.mp hnone
    have happ : ((m ++ [(k, (0:Frac) + v)]).map Prod.fst).Nodup := by
      rw [List.map_append]
      apply List.Nodup.append hnd (by simp)
      intro a ha hb
      simp at hb
      subst hb
      exact hknotin ha
    have hsnd : (((m ++ [(k, (0:Frac) + v)]).insertionSort
        (fun a b => a.1 ≤ b.1)).map Prod.fst).Nodup :=
      happ.perm ((List.perm_insertionSort _ _).map Prod.fst).symm
    cases hmj : m.lookup j with
    | none =>
      apply lookupN_eq_none_iff.mpr
      intro hmem
      have hmem2 : j ∈ (m ++ [(k, (0:Frac) + v)]).map Prod.fst := by
        have := ((List.perm_insertionSort (fun a b => a.1 ≤ b.1)
          (m ++ [(k, (0:Frac) + v)])).map Prod.fst).mem_iff.mp hmem
        exact this
      rw [List.map_append] at hmem2
      rcases List.mem_append.mp hmem2 with h1 | h1
      · exact lookupN_eq_none_iff.mp hmj h1
      · simp at h1
        exact hne h1
    | some u =>
      have hmem : (j, u) ∈ (m ++ [(k, (0:Frac) + v)]).insertionSort
          (fun a b => a.1 ≤ b.1) :=
        (List.perm_insertionSort _ _).mem_iff.mpr
          (List.mem_append_left _ (lookupN_mem hmj))
      exact lookupN_of_mem_nodup hsnd hmem

theorem foldl_addToMap_spec (w : Frac) (f : ℕ → Frac) (ES : List (ℕ × Frac)) :
    ∀ (m0 : List (ℕ × Frac)),
      (ES.map Prod.fst).Nodup → (∀ p ∈ ES, p.2 = f p.1) → (m0.map Prod.fst).Nodup →
      (((ES.foldl (fun m q => VigenereBreaker.addToMap m q.1 (q.2 * w)) m0).map
          Prod.fst).Nodup
        ∧ (∀ k, k ∈ (ES.foldl (fun m q => VigenereBreaker.addToMap m q.1 (q.2 * w))
              m0).map Prod.fst
            ↔ k ∈ m0.map Prod.fst ∨ k ∈ ES.map Prod.fst)
        ∧ (∀ k, k ∈ ES.map Prod.fst →
            (ES.foldl (fun m q => VigenereBreaker.addToMap m q.1 (q.2 * w)) m0).lookup k
              = some (((m0.lookup k).getD 0) + f k * w))
        ∧ (∀ k, k ∉ ES.map Prod.fst →
            (ES.foldl (fun m q => VigenereBreaker.addToMap m q.1 (q.2 * w)) m0).lookup k
              = m0.lookup k)) := by
  induction ES with
  | nil =>
    intro m0 _ _ hm0
    exact ⟨hm0, by simp, by simp, fun k _ => rfl⟩
  | cons r ES ih =>
    intro m0 hES hval hm0
    rw [List.map_cons, List.nodup_cons] at hES
    obtain ⟨hr, hES2⟩ := hES
    have hvr : r.2 = f r.1 := hval r (List.mem_cons_self _ _)
    have hm1nd : ((VigenereBreaker.addToMap m0 r.1 (r.2 * w)).map Prod.fst).Nodup :=
      addToMap_keys_nodup hm0 _ _
    have hfold : (r :: ES).foldl (fun m q => VigenereBreaker.addToMap m q.1 (q.2 * w)) m0
        = ES.foldl (fun m q => VigenereBreaker.addToMap m q.1 (q.2 * w))
            (VigenereBreaker.addToMap m0 r.1 (r.2 * w)) := rfl
    obtain ⟨ih1, ih2, ih3, ih4⟩ := ih (VigenereBreaker.addToMap m0 r.1 (r.2 * w)) hES2
      (fun p hp => hval p (List.mem_cons_of_mem _ hp)) hm1nd
    refine ⟨by rw [hfold]; exact ih1, ?_, ?_, ?_⟩
    · intro k
      rw [hfold, ih2 k, addToMap_mem_keys, List.map_cons, List.mem_cons]
      tauto
    · intro k hk
      rw [List.map_cons] at hk
      rw [hfold]
      rcases List.mem_cons.mp hk with hk1 | hk1
      · subst hk1
        rw [ih4 _ hr, addToMap_lookup_self hm0, hvr]
      · have hkne : k ≠ r.1 := fun he => hr (he ▸ hk1)
        rw [ih3 k hk1, addToMap_lookup_other hm0 hkne]
    · intro k hk
      rw [List.map_cons, List.mem_cons] at hk
      push_neg at hk
      rw [hfold, ih4 k hk.2, addToMap_lookup_other hm0 hk.1]

/-- The key-length fitness that `findKeyLength` actually ranks by:
`0.6 · kasiskiScore + 0.4 · icScore`, where the IC term is
`calculateICForKeyLength` (the average over the columns holding at least two
characters). -/
def VigenereBreaker.combinedScore (t : Text) (l : ℕ) : Frac :=
  Frac.ofPair 6 10 * VigenereBreaker.kasiskiScoreFn t l
    + Frac.ofPair 4 10 * VigenereBreaker.calculateICForKeyLength t l

theorem kasiskiExamination_keys_nodup (t : Text) :
    ((VigenereBreaker.kasiskiExamination t).map Prod.fst).Nodup := by
  rw [VigenereBreaker.kasiskiExamination]
  by_cases h : (VigenereBreaker.allDistances t).isEmpty
  · simp [h]
  · rw [if_neg h]
    apply ((List.perm_insertionSort FrequencyAnalyzer.scoreDescLe _).map Prod.fst).nodup_iff.mpr
    rw [List.map_map]
    have hid : (Prod.fst ∘ fun l => (l, VigenereBreaker.kasiskiScoreFn t l)) = id := rfl
    rw [hid, List.map_id]
    exact List.Nodup.filter _ (by decide)

theorem kasiskiExamination_values (t : Text) :
    ∀ p ∈ VigenereBreaker.kasiskiExamination t,
      p.2 = VigenereBreaker.kasiskiScoreFn t p.1 := by
  intro p hp
  rw [VigenereBreaker.kasiskiExamination] at hp
  by_cases h : (VigenereBreaker.allDistances t).isEmpty
  · rw [if_pos h] at hp
    simp at hp
  · rw [if_neg h] at hp
    have hp2 := (List.perm_insertionSort FrequencyAnalyzer.scoreDescLe _).mem_iff.mp hp
    obtain ⟨l, _, hpl⟩ := List.mem_map.mp hp2
    rw [← hpl]

theorem kasiskiExamination_keys_sub (t : Text) :
    ∀ k ∈ (VigenereBreaker.kasiskiExamination t).map Prod.fst,
      k ∈ List.range' VigenereBreaker.minKeyLength
        (VigenereBreaker.maxKeyLength - VigenereBreaker.minKeyLength + 1) := by
  intro k hk
  rw [VigenereBreaker.kasiskiExamination] at hk
  by_cases h : (VigenereBreaker.allDistances t).isEmpty
  · rw [if_pos h] at hk
    simp at hk
  · rw [if_neg h] at hk
    have hk2 := ((List.perm_insertionSort FrequencyAnalyzer.scoreDescLe _).map
      Prod.fst).mem_iff.mp hk
    rw [List.map_map] at hk2
    have hid : (Prod.fst ∘ fun l => (l, VigenereBreaker.kasiskiScoreFn t l)) = id := rfl
    rw [hid, List.map_id] at hk2
    exact (List.mem_filter.mp hk2).1

theorem kasFn_toRat_zero_of_not_mem (t : Text) (k : ℕ)
    (hnot : k ∉ (VigenereBreaker.kasiskiExamination t).map Prod.fst)
    (hk : k ∈ List.range' VigenereBreaker.minKeyLength
      (VigenereBreaker.maxKeyLength - VigenereBreaker.minKeyLength + 1)) :
    (VigenereBreaker.kasiskiScoreFn t k).toRat = 0 := by
  have hfc : VigenereBreaker.factorCount t k = 0 := by
    by_cases h : (VigenereBreaker.allDistances t).isEmpty
    · rw [VigenereBreaker.factorCount, List.isEmpty_iff.mp h]
      rfl
    · by_contra hne
      apply hnot
      rw [VigenereBreaker.kasiskiExamination, if_neg h]
      have hmemf : k ∈ (List.range' VigenereBreaker.minKeyLength
          (VigenereBreaker.maxKeyLength - VigenereBreaker.minKeyLength + 1)).filter
            (fun l => 0 < VigenereBreaker.factorCount t l) := by
        rw [List.mem_filter]
        refine ⟨hk, ?_⟩
        simp only [decide_eq_true_eq]
        exact Nat.pos_of_ne_zero hne
      apply ((List.perm_insertionSort FrequencyAnalyzer.scoreDescLe _).map
        Prod.fst).mem_iff.mpr
      rw [List.map_map]
      have hid : (Prod.fst ∘ fun l => (l, VigenereBreaker.kasiskiScoreFn t l)) = id := rfl
      rw [hid, List.map_id]
      exact hmemf
  rw [VigenereBreaker.kasiskiScoreFn]
  by_cases hm : VigenereBreaker.maxFactorCount t = 0
  · rw [if_pos hm, Frac.toRat_zero]
  · rw [if_neg hm, hfc, Frac.toRat_div]
    · simp [Frac.toRat_ofInt]
    · rw [Frac.toRat_ofInt]
      exact_mod_cast hm

theorem icMethod_keys_perm (t : Text) :
    ((VigenereBreaker.indexOfCoincidenceMethod t).map Prod.fst).Perm
      (List.range' VigenereBreaker.minKeyLength
        (VigenereBreaker.maxKeyLength - VigenereBreaker.minKeyLength + 1)) := by
  rw [VigenereBreaker.indexOfCoincidenceMethod]
  have hperm := (List.perm_insertionSort FrequencyAnalyzer.scoreDescLe
    ((List.range' VigenereBreaker.minKeyLength
      (VigenereBreaker.maxKeyLength - VigenereBreaker.minKeyLength + 1)).map
      (fun l => (l, VigenereBreaker.calculateICForKeyLength t l)))).map Prod.fst
  rw [List.map_map] at hperm
  have hid : (Prod.fst ∘ fun l => (l, VigenereBreaker.calculateICForKeyLength t l)) = id := rfl
  rw [hid, List.map_id] at hperm
  exact hperm

theorem icMethod_values (t : Text) :
    ∀ p ∈ VigenereBreaker.indexOfCoincidenceMethod t,
      p.2 = VigenereBreaker.calculateICForKeyLength t p.1 := by
  intro p hp
  rw [VigenereBreaker.indexOfCoincidenceMethod] at hp
  have hp2 := (List.perm_insertionSort FrequencyAnalyzer.scoreDescLe _).mem_iff.mp hp
  obtain ⟨l, _, hpl⟩ := List.mem_map.mp hp2
  rw [← hpl]

/-- C8, amended: `findKeyLength` returns every candidate length from 2 to 20
exactly once, ranked in descending order of the combined score
`0.6 · kasiskiScore + 0.4 · icScore`, where `icScore(L)` averages the index
of coincidence over the columns that hold at least two characters (columns
with fewer are excluded from the average). -/
theorem c8_key_length_ranking (t : Text) :
    (VigenereBreaker.findKeyLength t).Pairwise (fun l1 l2 =>
        (VigenereBreaker.combinedScore (Utils.normalizeText t) l2).toRat
          ≤ (VigenereBreaker.combinedScore (Utils.normalizeText t) l1).toRat)
      ∧ (VigenereBreaker.findKeyLength t).Perm
          (List.range' VigenereBreaker.minKeyLength
            (VigenereBreaker.maxKeyLength - VigenereBreaker.minKeyLength + 1)) := by
  have hrange_nd : (List.range' VigenereBreaker.minKeyLength
      (VigenereBreaker.maxKeyLength - VigenereBreaker.minKeyLength + 1)).Nodup := by decide
  set n := Utils.normalizeText t with hn
  have hkasnd := kasiskiExamination_keys_nodup n
  have hkasval := kasiskiExamination_values n
  have hicnd : ((VigenereBreaker.indexOfCoincidenceMethod n).map Prod.fst).Nodup :=
    (icMethod_keys_perm n).nodup_iff.mpr hrange_nd
  have hicval := icMethod_values n
  obtain ⟨h1nd, h1mem, h1in, h1out⟩ := foldl_addToMap_spec (Frac.ofPair 6 10)
    (VigenereBreaker.kasiskiScoreFn n) (VigenereBreaker.kasiskiExamination n) []
    hkasnd hkasval (by simp)
  obtain ⟨h2nd, h2mem, h2in, h2out⟩ := foldl_addToMap_spec (Frac.ofPair 4 10)
    (VigenereBreaker.calculateICForKeyLength n) (VigenereBreaker.indexOfCoincidenceMethod n)
    ((VigenereBreaker.kasiskiExamination n).foldl
      (fun m q => VigenereBreaker.addToMap m q.1 (q.2 * Frac.ofPair 6 10)) [])
    hicnd hicval h1nd
  have hval2 : ∀ p ∈ (VigenereBreaker.indexOfCoincidenceMethod n).foldl
      (fun m q => VigenereBreaker.addToMap m q.1 (q.2 * Frac.ofPair 4 10))
      ((VigenereBreaker.kasiskiExamination n).foldl
        (fun m q => VigenereBreaker.addToMap m q.1 (q.2 * Frac.ofPair 6 10)) []),
      p.2.toRat = (VigenereBreaker.combinedScore n p.1).toRat := by
    intro p hp
    have hlk := lookupN_of_mem_nodup h2nd hp
    have hpkey : p.1 ∈ ((VigenereBreaker.indexOfCoincidenceMethod n).foldl
        (fun m q => VigenereBreaker.addToMap m q.1 (q.2 * Frac.ofPair 4 10))
        ((VigenereBreaker.kasiskiExamination n).foldl
          (fun m q => VigenereBreaker.addToMap m q.1 (q.2 * Frac.ofPair 6 10)) [])).map
        Prod.fst := List.mem_map.mpr ⟨p, hp, rfl⟩
    have hprange : p.1 ∈ List.range' VigenereBreaker.minKeyLength
        (VigenereBreaker.maxKeyLength - VigenereBreaker.minKeyLength + 1) := by
      rcases (h2mem p.1).mp hpkey with hmem1 | hmemic
      · rcases (h1mem p.1).mp hmem1 with hempty | hkas
        · simp at hempty
        · exact kasiskiExamination_keys_sub n p.1 hkas
      · exact (icMethod_keys_perm n).mem_iff.mp hmemic
    have hpic : p.1 ∈ (VigenereBreaker.indexOfCoincidenceMethod n).map Prod.fst :=
      (icMethod_keys_perm n).mem_iff.mpr hprange
    have hlk2 := h2in p.1 hpic
    have hp2 := Option.some.inj (hlk.symm.trans hlk2)
    by_cases hkas : p.1 ∈ (VigenereBreaker.kasiskiExamination n).map Prod.fst
    · have hm1 := h1in p.1 hkas
      simp only [List.lookup_nil, Option.getD_none] at hm1
      rw [hm1, Option.getD_some] at hp2
      rw [hp2, VigenereBreaker.combinedScore, Frac.toRat_add, Frac.toRat_add,
        Frac.toRat_zero, Frac.toRat_mul, Frac.toRat_mul, Frac.toRat_add,
        Frac.toRat_mul, Frac.toRat_mul, Frac.toRat_ofPair _ _ (by norm_num),
        Frac.toRat_ofPair _ _ (by norm_num)]
      ring
    · have hm1 := h1out p.1 hkas
      rw [List.lookup_nil] at hm1
      rw [hm1, Option.getD_none] at hp2
      have hz := kasFn_toRat_zero_of_not_mem n p.1 hkas hprange
      rw [hp2, VigenereBreaker.combinedScore, Frac.toRat_add, Frac.toRat_zero,
        Frac.toRat_mul, Frac.toRat_add, Frac.toRat_mul, Frac.toRat_mul, hz,
        Frac.toRat_ofPair _ _ (by norm_num), Frac.toRat_ofPair _ _ (by norm_num)]
      ring
  have hkey : VigenereBreaker.findKeyLength t
      = (((VigenereBreaker.indexOfCoincidenceMethod n).foldl
            (fun m q => VigenereBreaker.addToMap m q.1 (q.2 * Frac.ofPair 4 10))
            ((VigenereBreaker.kasiskiExamination n).foldl
              (fun m q => VigenereBreaker.addToMap m q.1 (q.2 * Frac.ofPair 6 10))
              [])).insertionSort FrequencyAnalyzer.scoreDescLe).map Prod.fst := rfl
  constructor
  · rw [hkey, List.pairwise_map]
    have hsorted : (((VigenereBreaker.indexOfCoincidenceMethod n).foldl
        (fun m q => VigenereBreaker.addToMap m q.1 (q.2 * Frac.ofPair 4 10))
        ((VigenereBreaker.kasiskiExamination n).foldl
          (fun m q => VigenereBreaker.addToMap m q.1 (q.2 * Frac.ofPair 6 10))
          [])).insertionSort FrequencyAnalyzer.scoreDescLe).Pairwise
        FrequencyAnalyzer.scoreDescLe := List.sorted_insertionSort _ _
    refine List.Pairwise.imp_of_mem ?_ hsorted
    intro a b ha hb hab
    have ha2 := hval2 a ((List.perm_insertionSort _ _).mem_iff.mp ha)
    have hb2 := hval2 b ((List.perm_insertionSort _ _).mem_iff.mp hb)
    rw [← ha2, ← hb2]
    have hab2 : b.2 ≤ a.2 := hab
    exact (Frac.toRat_le _ _).mp hab2
  · rw [hkey]
    refine ((List.perm_insertionSort _ _).map Prod.fst).trans ?_
    rw [List.perm_ext_iff_of_nodup h2nd hrange_nd]
    intro k
    rw [h2mem k]
    constructor
    · rintro (h1 | h2)
      · rcases (h1mem k).mp h1 with he | hkas
        · simp at he
        · exact kasiskiExamination_keys_sub n k hkas
      · exact (icMethod_keys_perm n).mem_iff.mp h2
    · intro hk
      exact Or.inr ((icMethod_keys_perm n).mem_iff.mpr hk)

/-- The spec's IC score for a key length: the index of coincidence averaged
over all `L` columns (for comparison with `calculateICForKeyLength`, which
averages only over the columns holding at least two characters). -/
def specICScore (t : Text) (l : ℕ) : Frac :=
  let substrings := VigenereBreaker.splitByKeyPosition t l
  if 0 < substrings.length then
    (substrings.foldl (fun acc s => acc + FrequencyAnalyzer.calculateIndexOfCoincidence s)
      (0 : Frac)) / Frac.ofInt substrings.length
  else (0 : Frac)

/-- The spec's combined key-length score, with the all-columns IC average. -/
def specCombinedScore (t : Text) (l : ℕ) : Frac :=
  Frac.ofPair 6 10 * VigenereBreaker.kasiskiScoreFn t l
    + Frac.ofPair 4 10 * specICScore t l

/-- C8, counterexample: on `"ABCDEFAHIC"` (no repeated pattern, so the
Kasiski term is zero for every length) the code averages the IC only over
columns with at least two characters, ranking length 7 (IC `1/3` over 3 such
columns) strictly before length 6 (IC `1/4` over 4), while the spec's
all-columns average scores length 6 (IC `1/6`) strictly above length 7
(IC `1/7`). -/
theorem c8_ic_average_counterexample :
    (VigenereBreaker.findKeyLength "ABCDEFAHIC".toList).indexOf 7
        < (VigenereBreaker.findKeyLength "ABCDEFAHIC".toList).indexOf 6
      ∧ (specCombinedScore (Utils.normalizeText "ABCDEFAHIC".toList) 7).toRat
          < (specCombinedScore (Utils.normalizeText "ABCDEFAHIC".toList) 6).toRat := by
  constructor
  · decide
  · exact (Frac.toRat_lt _ _).mp (by decide)
